import Mathlib

/-!
Shallow embedding of the Ocypode wire-protocol core (crates `common`,
`topic`, `protocol`) and proofs about its claims.

Byte buffers are modelled as `List Nat`; every byte produced by the Rust
code is `< 256`.  Rust's `&` / `|` / `<<` / `>>` on unsigned integers are
modelled with `Nat.land`/`Nat.lor`/`Nat.shiftLeft`/`Nat.shiftRight`
(`&&&`/`|||`/`<<<`/`>>>`); the truncating casts `as u8`/`as u16`/`as u32`
are modelled with `% 256`/`% 65536`/`% 2^32` at exactly the places the
source performs them.  Fallible reads take a buffer and return the decoded
value together with the unconsumed rest, mirroring the `&mut Bytes`
cursor of the source.
-/

set_option maxRecDepth 8192

namespace Ocypode

deriving instance DecidableEq for Except

abbrev Buf := List Nat

/-- Error type of `common::error::WireError`. -/
inductive WireError where
  | BufferTooShort (expected actual : Nat)
  | VariableLengthOverflow
deriving DecidableEq

/-- Model of `WireDecode::read_u8` for `Bytes` (common/src/wire.rs). -/
def read_u8 : Buf → Except WireError (Nat × Buf)
  | [] => .error (.BufferTooShort 1 0)
  | b :: rest => .ok (b, rest)

/-- Model of `WireDecode::read_u16` (big-endian, common/src/wire.rs). -/
def read_u16 : Buf → Except WireError (Nat × Buf)
  | b0 :: b1 :: rest => .ok (b0 * 256 + b1, rest)
  | src => .error (.BufferTooShort 2 src.length)

/-- Model of `WireDecode::read_u32` (big-endian, common/src/wire.rs). -/
def read_u32 : Buf → Except WireError (Nat × Buf)
  | b0 :: b1 :: b2 :: b3 :: rest => .ok (((b0 * 256 + b1) * 256 + b2) * 256 + b3, rest)
  | src => .error (.BufferTooShort 4 src.length)

/-- Loop body of `read_varint`: at most `fuel` groups remain to be read;
the source iterates `for _ in 0..VARINT_MAX_BYTES` and falls through to
`VariableLengthOverflow`. -/
def read_varint_go : Nat → Buf → Nat → Nat → Except WireError (Nat × Buf)
  | 0, _, _, _ => .error .VariableLengthOverflow
  | _ + 1, [], _, _ => .error (.BufferTooShort 1 0)
  | fuel + 1, b :: rest, value, shift =>
      let value := value ||| ((b &&& 127) <<< shift)
      if b &&& 128 = 0 then .ok (value, rest)
      else read_varint_go fuel rest value (shift + 7)

/-- Model of `WireDecode::read_varint` (common/src/wire.rs): little-endian
base-128 groups, MSB is the continuation flag, at most 4 groups. -/
def read_varint (src : Buf) : Except WireError (Nat × Buf) :=
  read_varint_go 4 src 0 0

/-- Model of `WireDecode::read_length_prefixed_u8` (common/src/wire.rs). -/
def read_length_prefixed_u8 (src : Buf) : Except WireError (Buf × Buf) :=
  match read_u8 src with
  | .error e => .error e
  | .ok (length, rest) =>
      if rest.length < length then .error (.BufferTooShort length rest.length)
      else .ok (rest.take length, rest.drop length)

/-- Model of `WireDecode::read_length_prefixed_u16` (common/src/wire.rs). -/
def read_length_prefixed_u16 (src : Buf) : Except WireError (Buf × Buf) :=
  match read_u16 src with
  | .error e => .error e
  | .ok (length, rest) =>
      if rest.length < length then .error (.BufferTooShort length rest.length)
      else .ok (rest.take length, rest.drop length)

/-- Model of `BytesMut::put_u16` (big-endian) applied to a `u16` value. -/
def put_u16 (v : Nat) : Buf := [v / 256, v % 256]

/-- Model of `BytesMut::put_u32` (big-endian) applied to a `u32` value. -/
def put_u32 (v : Nat) : Buf :=
  [v / 16777216, v / 65536 % 256, v / 256 % 256, v % 256]

/-- Loop of `WireEncode::put_varint` (common/src/wire.rs): emit
`value & 0x7F`, set the continuation bit when `value >> 7` is nonzero,
repeat on `value >> 7` until it reaches zero.  The loop always terminates
because the value shrinks; `fuel` (instantiated with the value itself,
which bounds the iteration count) only makes that termination structural
and is never exhausted. -/
def put_varint_go : Nat → Nat → Buf
  | 0, v => [v &&& 127]
  | fuel + 1, v =>
      if v >>> 7 = 0 then [v &&& 127]
      else (v &&& 127 ||| 128) :: put_varint_go fuel (v >>> 7)

/-- Model of `WireEncode::put_varint`. -/
def put_varint (v : Nat) : Buf := put_varint_go v v

/-- Model of `WireEncode::put_length_prefixed_u8`: writes `len as u8`
followed by all of the bytes. -/
def put_length_prefixed_u8 (l : Buf) : Buf := (l.length % 256) :: l

/-- Model of `WireEncode::put_length_prefixed_u16`: writes `len as u16`
big-endian followed by all of the bytes. -/
def put_length_prefixed_u16 (l : Buf) : Buf := put_u16 (l.length % 65536) ++ l

/-! Arithmetic bridges for the bit operations used by the varint codec. -/

theorem and127_eq_mod (b : Nat) : b &&& 127 = b % 128 := by
  have h : (127 : Nat) = 2 ^ 7 - 1 := rfl
  rw [h, Nat.and_pow_two_sub_one_eq_mod]

theorem and128_eq_zero {b : Nat} (h : b < 128) : b &&& 128 = 0 := by
  have h2 : (128 : Nat) = 2 ^ 7 := rfl
  have hb : b < 2 ^ 7 := Nat.lt_of_lt_of_eq h (by norm_num)
  rw [h2, Nat.and_two_pow]
  simp [Nat.testBit_eq_false_of_lt hb]

theorem add128_and128 {b : Nat} (h : b < 128) : (b + 128) &&& 128 = 128 := by
  have hor : b + 128 = 128 ||| b := by
    have := Nat.mul_add_lt_is_or (i := 7) h 1
    simpa [Nat.add_comm] using this
  rw [hor, Nat.and_distrib_right, and128_eq_zero h]
  simp

theorem add128_and127 {b : Nat} (h : b < 128) : (b + 128) &&& 127 = b := by
  have hor : b + 128 = 128 ||| b := by
    have := Nat.mul_add_lt_is_or (i := 7) h 1
    simpa [Nat.add_comm] using this
  rw [hor, Nat.and_distrib_right, and127_eq_mod, and127_eq_mod]
  simp [Nat.mod_eq_of_lt h]

theorem or_shift_disjoint {a : Nat} (b k : Nat) (h : a < 2 ^ k) :
    a ||| (b <<< k) = a + b * 2 ^ k := by
  rw [Nat.shiftLeft_eq, Nat.lor_comm, Nat.mul_comm b (2 ^ k),
    ← Nat.mul_add_lt_is_or h b]
  omega

theorem shiftRight7_eq (v : Nat) : v >>> 7 = v / 128 := by
  rw [Nat.shiftRight_eq_div_pow]

/-- The fuel of `put_varint_go` is irrelevant once it bounds the value. -/
theorem put_varint_go_congr (v : Nat) : ∀ f₁ f₂ : Nat, v ≤ f₁ → v ≤ f₂ →
    put_varint_go f₁ v = put_varint_go f₂ v := by
  induction v using Nat.strong_induction_on with
  | _ v ih =>
    intro f₁ f₂ h₁ h₂
    rcases Nat.lt_or_ge v 128 with hv | hv
    · have h0 : v >>> 7 = 0 := by rw [shiftRight7_eq]; omega
      cases f₁ <;> cases f₂ <;> simp [put_varint_go, h0]
    · have h0 : ¬ v >>> 7 = 0 := by rw [shiftRight7_eq]; omega
      obtain ⟨g₁, rfl⟩ : ∃ g, f₁ = g + 1 := ⟨f₁ - 1, by omega⟩
      obtain ⟨g₂, rfl⟩ : ∃ g, f₂ = g + 1 := ⟨f₂ - 1, by omega⟩
      simp only [put_varint_go, h0, if_false, List.cons.injEq, true_and]
      exact ih (v >>> 7) (by rw [shiftRight7_eq]; omega) g₁ g₂
        (by rw [shiftRight7_eq]; omega) (by rw [shiftRight7_eq]; omega)

/-- Unfolding of `put_varint` on small values. -/
theorem put_varint_small {v : Nat} (h : v < 128) : put_varint v = [v] := by
  have h0 : v >>> 7 = 0 := by rw [shiftRight7_eq]; omega
  have hm : v &&& 127 = v := by rw [and127_eq_mod]; omega
  cases v with
  | zero => simp [put_varint, put_varint_go]
  | succ n => simp [put_varint, put_varint_go, h0, hm]

/-- Unfolding of `put_varint` on large values. -/
theorem put_varint_large {v : Nat} (h : 128 ≤ v) :
    put_varint v = (v % 128 + 128) :: put_varint (v / 128) := by
  have h0 : ¬ v >>> 7 = 0 := by rw [shiftRight7_eq]; omega
  have hor : v &&& 127 ||| 128 = v % 128 + 128 := by
    rw [and127_eq_mod]
    have := or_shift_disjoint (a := v % 128) 1 7 (Nat.mod_lt _ (by omega))
    simpa using this
  match hf : v, h with
  | g + 1, _ =>
    simp only [put_varint, put_varint_go, h0, if_false, hor, List.cons.injEq,
      true_and]
    rw [shiftRight7_eq]
    exact put_varint_go_congr _ _ _ (by omega) (by omega)

/-- The varint read loop consumes a terminal group (continuation bit clear). -/
theorem read_varint_go_stop (fuel value shift b : Nat) (rest : Buf) (h : b < 128) :
    read_varint_go (fuel + 1) (b :: rest) value shift =
      .ok (value ||| ((b &&& 127) <<< shift), rest) := by
  simp [read_varint_go, and128_eq_zero h]

/-- The varint read loop consumes a continuation group (bit 7 set). -/
theorem read_varint_go_cont (fuel value shift b : Nat) (rest : Buf) (h : b < 128) :
    read_varint_go (fuel + 1) ((b + 128) :: rest) value shift =
      read_varint_go fuel rest (value ||| (b <<< shift)) (shift + 7) := by
  have hc : ¬ (b + 128) &&& 128 = 0 := by rw [add128_and128 h]; omega
  simp [read_varint_go, hc, add128_and127 h]

/-- The number of groups `put_varint` emits is bounded by the group count
of the value: `v < 128^k` gives at most `k` bytes (for `k ≥ 1`). -/
theorem put_varint_length_le (k : Nat) : ∀ v : Nat, v < 128 ^ (k + 1) →
    (put_varint v).length ≤ k + 1 := by
  induction k with
  | zero =>
      intro v hv
      rw [put_varint_small (by simpa using hv)]
      simp
  | succ k ih =>
      intro v hv
      rcases Nat.lt_or_ge v 128 with h | h
      · rw [put_varint_small h]; simp
      · rw [put_varint_large h]
        simp only [List.length_cons]
        have : v / 128 < 128 ^ (k + 1) := by
          rw [Nat.div_lt_iff_lt_mul (by norm_num), ← Nat.pow_succ]
          exact hv
        have := ih (v / 128) this
        omega

/-- Generalized varint round trip: reading the encoding of `v` into an
accumulator `value` below `2^shift` yields `value + v·2^shift`. -/
theorem read_put_varint_go (v : Nat) : ∀ fuel value shift : Nat, ∀ rest : Buf,
    (put_varint v).length ≤ fuel → value < 2 ^ shift →
    read_varint_go fuel (put_varint v ++ rest) value shift =
      .ok (value + v * 2 ^ shift, rest) := by
  induction v using Nat.strong_induction_on with
  | _ v ih =>
    intro fuel value shift rest hfuel hvalue
    rcases Nat.lt_or_ge v 128 with h | h
    · rw [put_varint_small h] at hfuel ⊢
      match fuel, hfuel with
      | f + 1, _ =>
        rw [List.cons_append, List.nil_append, read_varint_go_stop _ _ _ _ _ h]
        rw [and127_eq_mod, Nat.mod_eq_of_lt h, or_shift_disjoint _ _ hvalue]
    · rw [put_varint_large h] at hfuel ⊢
      match fuel, hfuel with
      | f + 1, hfuel =>
        rw [List.cons_append, read_varint_go_cont _ _ _ _ _ (Nat.mod_lt _ (by omega))]
        rw [or_shift_disjoint _ _ hvalue]
        have hv' : value + v % 128 * 2 ^ shift < 2 ^ (shift + 7) := by
          have h127 : v % 128 ≤ 127 := by omega
          have : value + v % 128 * 2 ^ shift < 2 ^ shift + 127 * 2 ^ shift :=
            by
              have := Nat.mul_le_mul_right (2 ^ shift) h127
              omega
          calc value + v % 128 * 2 ^ shift
              < 2 ^ shift + 127 * 2 ^ shift := this
            _ = 2 ^ shift * 128 := by ring
            _ = 2 ^ (shift + 7) := by rw [Nat.pow_add]
        rw [ih (v / 128) (by omega) f _ _ rest (by simpa using hfuel) hv']
        congr 2
        rw [Nat.pow_add]
        have := Nat.div_add_mod v 128
        ring_nf
        nlinarith [Nat.div_add_mod v 128]

/-- Round trip of the varint codec for all values representable in 4 groups. -/
theorem read_put_varint (v : Nat) (hv : v < 2 ^ 28) (rest : Buf) :
    read_varint (put_varint v ++ rest) = .ok (v, rest) := by
  have hlen : (put_varint v).length ≤ 4 :=
    put_varint_length_le 3 v (by norm_num at hv ⊢; omega)
  have := read_put_varint_go v 4 0 0 rest hlen (by norm_num)
  simpa using this

/-- Four consecutive continuation bits overflow the varint reader. -/
theorem read_varint_overflow (b0 b1 b2 b3 : Nat) (rest : Buf)
    (h0 : b0 &&& 128 ≠ 0) (h1 : b1 &&& 128 ≠ 0) (h2 : b2 &&& 128 ≠ 0)
    (h3 : b3 &&& 128 ≠ 0) :
    read_varint (b0 :: b1 :: b2 :: b3 :: rest) = .error .VariableLengthOverflow := by
  simp [read_varint, read_varint_go, h0, h1, h2, h3]

/-- A buffer that runs out before a terminal varint group fails short. -/
theorem read_varint_short (src : Buf) (hlen : src.length < 4)
    (hc : ∀ b ∈ src, b &&& 128 ≠ 0) :
    read_varint src = .error (.BufferTooShort 1 0) := by
  match src with
  | [] => simp [read_varint, read_varint_go]
  | [b0] =>
      simp [read_varint, read_varint_go, hc b0 (by simp)]
  | [b0, b1] =>
      simp [read_varint, read_varint_go, hc b0 (by simp), hc b1 (by simp)]
  | [b0, b1, b2] =>
      simp [read_varint, read_varint_go, hc b0 (by simp), hc b1 (by simp),
        hc b2 (by simp)]
  | _ :: _ :: _ :: _ :: _ => simp at hlen; omega

/-- Explicit byte shape of `put_varint` on values needing a fifth group. -/
theorem put_varint_five (v : Nat) (h1 : 2 ^ 28 ≤ v) (h2 : v < 2 ^ 32) :
    put_varint v =
      [v % 128 + 128, v / 128 % 128 + 128, v / 16384 % 128 + 128,
        v / 2097152 % 128 + 128, v / 268435456] := by
  rw [put_varint_large (by omega), put_varint_large (show 128 ≤ v / 128 by omega),
    put_varint_large (show 128 ≤ v / 128 / 128 by omega),
    put_varint_large (show 128 ≤ v / 128 / 128 / 128 by omega),
    put_varint_small (show v / 128 / 128 / 128 / 128 < 128 by omega)]
  norm_num [Nat.div_div_eq_div_mul]

/-- Round trip of `read_u32` against `put_u32` on `u32` values. -/
theorem read_put_u32 (v : Nat) (h : v < 2 ^ 32) (rest : Buf) :
    read_u32 (put_u32 v ++ rest) = .ok (v, rest) := by
  simp [put_u32, read_u32]
  omega

/-- Round trip of the 1-byte length prefix when the payload fits. -/
theorem read_put_lp8 (l : Buf) (h : l.length ≤ 255) (rest : Buf) :
    read_length_prefixed_u8 (put_length_prefixed_u8 l ++ rest) = .ok (l, rest) := by
  have hm : l.length % 256 = l.length := Nat.mod_eq_of_lt (by omega)
  simp only [put_length_prefixed_u8, List.cons_append, read_length_prefixed_u8,
    read_u8, hm]
  rw [if_neg (by simp)]
  rw [List.take_left' rfl, List.drop_left' rfl]

/-- Round trip of the 2-byte length prefix when the payload fits. -/
theorem read_put_lp16 (l : Buf) (h : l.length ≤ 65535) (rest : Buf) :
    read_length_prefixed_u16 (put_length_prefixed_u16 l ++ rest) = .ok (l, rest) := by
  have hm : l.length % 65536 = l.length := Nat.mod_eq_of_lt (by omega)
  simp only [put_length_prefixed_u16, put_u16, hm, List.cons_append,
    List.nil_append, read_length_prefixed_u16, read_u16]
  have hv : l.length / 256 * 256 + l.length % 256 = l.length := by omega
  rw [hv]
  rw [if_neg (by simp)]
  rw [List.take_left' rfl, List.drop_left' rfl]

/-! Topic model (crates/topic). -/

/-- Error type `topic::TopicError`. -/
inductive TopicError where
  | ExceedsMaxLength (length : Nat)
  | ExceedsMaxLayerCount (count : Nat)
  | LeadingSlash
  | TrailingSlash
  | EmptyLayer
  | WildcardInPublishTopic
  | MultiLayerWildcardNotTerminal
  | Wire (e : WireError)
deriving DecidableEq

def MAXIMUM_TOPIC_LENGTH : Nat := 256
def MAXIMUM_TOPIC_LAYER : Nat := 8
def MAX_SLASH_COUNT : Nat := MAXIMUM_TOPIC_LAYER - 1
def LAYER_SEPARATOR : Nat := 47
def SINGLE_LAYER_WILDCARD : Nat := 43
def MULTI_LAYER_WILDCARD : Nat := 35

/-- Internal representation shared by `Topic` and `TopicFilter`
(topic/src/topic_wire.rs).  `slash_positions` keeps the recorded byte
offsets of the separators (the source stores them in a fixed `[u8; 7]`
array of which only the first `layer_count - 1` entries are meaningful;
the model keeps exactly those entries). -/
structure TopicWire where
  raw : Buf
  layer_count : Nat
  slash_positions : List Nat
deriving DecidableEq

/-- Model of `TopicWire::validate_length`. -/
def TopicWire.validate_length (raw : Buf) : Except TopicError Unit :=
  if raw.length = 0 ∨ raw.length > MAXIMUM_TOPIC_LENGTH then
    .error (.ExceedsMaxLength raw.length)
  else .ok ()

/-- Model of `TopicWire::validate_no_leading_or_trailing_slash`; the
source indexes `raw[0]` and `raw[len-1]` after the non-emptiness check. -/
def TopicWire.validate_no_edge_slash (raw : Buf) : Except TopicError Unit :=
  if raw.headD 0 = LAYER_SEPARATOR then .error .LeadingSlash
  else if raw.getLastD 0 = LAYER_SEPARATOR then .error .TrailingSlash
  else .ok ()

/-- Loop of `TopicWire::scan_slashes`: walk the bytes at index `i`,
recording separator offsets (`i as u8`) in `positions`, failing on an
adjacent pair or on an eighth separator. -/
def TopicWire.scan_go : Buf → Nat → List Nat → Bool → Except TopicError (List Nat × Nat)
  | [], _, positions, _ =>
      let layer_count := positions.length + 1
      if layer_count > MAXIMUM_TOPIC_LAYER then
        .error (.ExceedsMaxLayerCount layer_count)
      else .ok (positions, layer_count)
  | b :: rest, i, positions, prev_was_slash =>
      if b = LAYER_SEPARATOR then
        if prev_was_slash then .error .EmptyLayer
        else if positions.length ≥ MAX_SLASH_COUNT then
          .error (.ExceedsMaxLayerCount (positions.length + 2))
        else TopicWire.scan_go rest (i + 1) (positions ++ [i % 256]) true
      else TopicWire.scan_go rest (i + 1) positions false

/-- Model of `TopicWire::scan_slashes`. -/
def TopicWire.scan_slashes (raw : Buf) : Except TopicError (List Nat × Nat) :=
  TopicWire.scan_go raw 0 [] false

/-- Validation pipeline of `TopicWire::decode` after the length prefix
has been read (the `?`-propagating body of the source function). -/
def TopicWire.from_raw (raw : Buf) : Except TopicError TopicWire := do
  TopicWire.validate_length raw
  TopicWire.validate_no_edge_slash raw
  let (slash_positions, layer_count) ← TopicWire.scan_slashes raw
  pure ⟨raw, layer_count, slash_positions⟩

/-- Model of `TopicWire::decode`; Rust's `?` is the `Except` bind with
the `From` error conversion. -/
def TopicWire.decode (src : Buf) : Except TopicError (TopicWire × Buf) := do
  let (raw, rest) ← (read_length_prefixed_u16 src).mapError TopicError.Wire
  let w ← TopicWire.from_raw raw
  pure (w, rest)

/-- Model of `TopicWire::encode_to`: replays the stored raw bytes as a
2-byte length-prefixed string. -/
def TopicWire.encode_to (t : TopicWire) : Buf :=
  put_length_prefixed_u16 t.raw

/-- Model of `TopicWire::layer`: slices the raw bytes between the
recorded separator offsets.  The source asserts `index < layer_count`;
the model is total and returns the same slice arithmetic. -/
def TopicWire.layer (t : TopicWire) (index : Nat) : Buf :=
  let start := if index = 0 then 0 else t.slash_positions.getD (index - 1) 0 + 1
  let stop :=
    if index + 1 < t.layer_count then t.slash_positions.getD index 0
    else t.raw.length
  (t.raw.drop start).take (stop - start)

/-- Model of `topic::Topic`: a validated publish topic. -/
structure Topic where
  wire : TopicWire
deriving DecidableEq

/-- Model of `Topic::decode`: wire validation plus the wildcard-byte scan. -/
def Topic.decode (src : Buf) : Except TopicError (Topic × Buf) := do
  let (wire, rest) ← TopicWire.decode src
  if wire.raw.any fun b => b == SINGLE_LAYER_WILDCARD || b == MULTI_LAYER_WILDCARD then
    .error .WildcardInPublishTopic
  else .ok (⟨wire⟩, rest)

def Topic.encode_to (t : Topic) : Buf := t.wire.encode_to

def Topic.as_bytes (t : Topic) : Buf := t.wire.raw

def Topic.layer_count (t : Topic) : Nat := t.wire.layer_count

def Topic.layer (t : Topic) (index : Nat) : Buf := t.wire.layer index

/-- Model of `topic::WildcardKind`. -/
inductive WildcardKind where
  | None
  | SingleLayer
  | MultiLayer
  | Both
deriving DecidableEq

/-- Loop of `TopicFilter::classify_wildcards` over the layer indices,
accumulating the `has_single_layer` / `has_multi_layer` booleans. -/
def TopicFilter.classify_go (wire : TopicWire) :
    List Nat → Bool → Bool → Except TopicError (Bool × Bool)
  | [], hs, hm => .ok (hs, hm)
  | layer_index :: rest, hs, hm =>
      let layer := wire.layer layer_index
      let is_terminal_layer := layer_index + 1 = wire.layer_count
      let layer_has_plus := layer.contains SINGLE_LAYER_WILDCARD
      let layer_has_hash := layer.contains MULTI_LAYER_WILDCARD
      if layer_has_hash && !is_terminal_layer then
        .error .MultiLayerWildcardNotTerminal
      else
        TopicFilter.classify_go wire rest (hs || layer_has_plus) (hm || layer_has_hash)

/-- Model of `TopicFilter::classify_wildcards`. -/
def TopicFilter.classify_wildcards (wire : TopicWire) : Except TopicError WildcardKind :=
  match TopicFilter.classify_go wire (List.range wire.layer_count) false false with
  | .error e => .error e
  | .ok (has_single_layer, has_multi_layer) =>
      .ok (match has_single_layer, has_multi_layer with
        | false, false => WildcardKind.None
        | true, false => WildcardKind.SingleLayer
        | false, true => WildcardKind.MultiLayer
        | true, true => WildcardKind.Both)

/-- Model of `topic::TopicFilter`: a validated subscription pattern with
its wildcard classification. -/
structure TopicFilter where
  wire : TopicWire
  wildcard_kind : WildcardKind
deriving DecidableEq

/-- Model of `TopicFilter::decode`. -/
def TopicFilter.decode (src : Buf) : Except TopicError (TopicFilter × Buf) := do
  let (wire, rest) ← TopicWire.decode src
  let wildcard ← TopicFilter.classify_wildcards wire
  .ok (⟨wire, wildcard⟩, rest)

def TopicFilter.encode_to (t : TopicFilter) : Buf := t.wire.encode_to

def TopicFilter.as_bytes (t : TopicFilter) : Buf := t.wire.raw

def TopicFilter.layer_count (t : TopicFilter) : Nat := t.wire.layer_count

def TopicFilter.layer (t : TopicFilter) (index : Nat) : Buf := t.wire.layer index

def TopicFilter.wildcard (t : TopicFilter) : WildcardKind := t.wildcard_kind

/-! Characterization of the separator scan. -/

/-- Offsets (from `i`) of the separator bytes of a buffer. -/
def sepIdxsFrom : Buf → Nat → List Nat
  | [], _ => []
  | b :: rest, i =>
      if b = LAYER_SEPARATOR then i :: sepIdxsFrom rest (i + 1)
      else sepIdxsFrom rest (i + 1)

/-- Whether the buffer has two adjacent separators, `prev` recording
whether the byte just before the buffer was a separator. -/
def hasAdjSep : Buf → Bool → Bool
  | [], _ => false
  | b :: rest, prev =>
      ((b == LAYER_SEPARATOR) && prev) || hasAdjSep rest (b == LAYER_SEPARATOR)

/-- Slices of a buffer between (absolute, increasing) separator offsets,
starting at byte `start`. -/
def layersOf_go (raw : Buf) : Nat → List Nat → List Buf
  | start, [] => [raw.drop start]
  | start, p :: ps => (raw.drop start).take (p - start) :: layersOf_go raw (p + 1) ps

/-- Slices of a buffer between (absolute, increasing) separator offsets. -/
def layersOf (raw : Buf) (ps : List Nat) : List Buf := layersOf_go raw 0 ps

theorem sepIdxsFrom_length (l : Buf) : ∀ i : Nat,
    (sepIdxsFrom l i).length = l.count LAYER_SEPARATOR := by
  induction l with
  | nil => intro i; simp [sepIdxsFrom]
  | cons b rest ih =>
      intro i
      by_cases hb : b = LAYER_SEPARATOR <;>
        simp [sepIdxsFrom, hb, List.count_cons, ih]

theorem sepIdxsFrom_mem (l : Buf) : ∀ i p : Nat, p ∈ sepIdxsFrom l i →
    i ≤ p ∧ p < i + l.length := by
  induction l with
  | nil => intro i p h; simp [sepIdxsFrom] at h
  | cons b rest ih =>
      intro i p h
      by_cases hb : b = LAYER_SEPARATOR
      · simp only [sepIdxsFrom, hb, if_true, List.mem_cons] at h
        rcases h with rfl | h
        · simp only [List.length_cons]; omega
        · have := ih (i + 1) p h; simp only [List.length_cons]; omega
      · simp only [sepIdxsFrom, hb, if_false] at h
        have := ih (i + 1) p h; simp only [List.length_cons]; omega

theorem sepIdxsFrom_sorted (l : Buf) : ∀ i : Nat,
    (sepIdxsFrom l i).Pairwise (· < ·) := by
  induction l with
  | nil => intro i; simp [sepIdxsFrom]
  | cons b rest ih =>
      intro i
      by_cases hb : b = LAYER_SEPARATOR
      · simp only [sepIdxsFrom, hb, if_true]
        refine List.pairwise_cons.mpr ⟨?_, ih (i + 1)⟩
        intro p hp
        have := sepIdxsFrom_mem rest (i + 1) p hp
        omega
      · simp only [sepIdxsFrom, hb, if_false]
        exact ih (i + 1)

/-- Success of the scan loop: with no adjacent pair in sight and at most
seven separators in total the loop returns exactly the separator offsets. -/
theorem scan_go_ok (l : Buf) : ∀ (i : Nat) (acc : List Nat) (prev : Bool),
    hasAdjSep l prev = false →
    acc.length + l.count LAYER_SEPARATOR ≤ 7 →
    i + l.length ≤ 256 →
    TopicWire.scan_go l i acc prev =
      .ok (acc ++ sepIdxsFrom l i, acc.length + l.count LAYER_SEPARATOR + 1) := by
  induction l with
  | nil =>
      intro i acc prev _ hcnt _
      have hle : ¬ acc.length + 1 > MAXIMUM_TOPIC_LAYER := by
        simp [MAXIMUM_TOPIC_LAYER]; omega
      simp [TopicWire.scan_go, sepIdxsFrom, hle]
  | cons b rest ih =>
      intro i acc prev hadj hcnt hlen
      by_cases hb : b = LAYER_SEPARATOR
      · subst hb
        simp only [hasAdjSep, beq_self_eq_true, Bool.true_and, Bool.or_eq_false_iff] at hadj
        obtain ⟨hprev, hadj'⟩ := hadj
        have hcount : (LAYER_SEPARATOR :: rest).count LAYER_SEPARATOR =
            rest.count LAYER_SEPARATOR + 1 := by simp [List.count_cons]
        have hnotfull : ¬ acc.length ≥ MAX_SLASH_COUNT := by
          simp [MAX_SLASH_COUNT, MAXIMUM_TOPIC_LAYER]
          rw [hcount] at hcnt
          omega
        have hmod : i % 256 = i := Nat.mod_eq_of_lt (by simp at hlen; omega)
        simp only [TopicWire.scan_go, if_pos rfl, hprev, if_false, hnotfull,
          Bool.false_eq_true]
        rw [hmod]
        rw [ih (i + 1) (acc ++ [i]) true hadj'
          (by simp; rw [hcount] at hcnt; omega)
          (by simp at hlen ⊢; omega)]
        simp [sepIdxsFrom, hcount, List.append_assoc]
        omega
      · have hb' : (b == LAYER_SEPARATOR) = false := by simp [hb]
        simp only [hasAdjSep, hb', Bool.false_and, Bool.false_or] at hadj
        have hcount : (b :: rest).count LAYER_SEPARATOR =
            rest.count LAYER_SEPARATOR := by simp [List.count_cons, hb]
        simp only [TopicWire.scan_go, hb, if_false]
        rw [ih (i + 1) acc false hadj
          (by rw [hcount] at hcnt; omega) (by simp at hlen ⊢; omega)]
        simp [sepIdxsFrom, hb, hcount]

/-- An adjacent separator pair reached before an eighth separator makes
the scan fail with `EmptyLayer`. -/
theorem scan_go_empty_layer (l : Buf) : ∀ (i : Nat) (acc : List Nat) (prev : Bool),
    hasAdjSep l prev = true →
    acc.length + l.count LAYER_SEPARATOR ≤ 7 →
    TopicWire.scan_go l i acc prev = .error .EmptyLayer := by
  induction l with
  | nil => intro i acc prev hadj _; simp [hasAdjSep] at hadj
  | cons b rest ih =>
      intro i acc prev hadj hcnt
      by_cases hb : b = LAYER_SEPARATOR
      · subst hb
        simp only [hasAdjSep, beq_self_eq_true, Bool.true_and, Bool.or_eq_true] at hadj
        by_cases hprev : prev = true
        · simp [TopicWire.scan_go, hprev]
        · have hprev' : prev = false := by cases prev <;> simp_all
          have hadj' : hasAdjSep rest true = true := by
            rcases hadj with h | h
            · exact absurd h hprev
            · exact h
          have hcount : (LAYER_SEPARATOR :: rest).count LAYER_SEPARATOR =
              rest.count LAYER_SEPARATOR + 1 := by simp [List.count_cons]
          have hnotfull : ¬ acc.length ≥ MAX_SLASH_COUNT := by
            simp [MAX_SLASH_COUNT, MAXIMUM_TOPIC_LAYER]
            rw [hcount] at hcnt
            omega
          simp only [TopicWire.scan_go, if_pos rfl, hprev', if_false, hnotfull,
            Bool.false_eq_true]
          exact ih (i + 1) (acc ++ [i % 256]) true hadj'
            (by simp; rw [hcount] at hcnt; omega)
      · have hb' : (b == LAYER_SEPARATOR) = false := by simp [hb]
        simp only [hasAdjSep, hb', Bool.false_and, Bool.false_or] at hadj
        have hcount : (b :: rest).count LAYER_SEPARATOR =
            rest.count LAYER_SEPARATOR := by simp [List.count_cons, hb]
        simp only [TopicWire.scan_go, hb, if_false]
        exact ih (i + 1) acc false hadj (by rw [hcount] at hcnt; omega)

/-- An eighth separator (with no earlier adjacent pair) makes the scan
fail with `ExceedsMaxLayerCount 9`: the error fires at that separator and
reports the layer count that would result. -/
theorem scan_go_overflow (l : Buf) : ∀ (i : Nat) (acc : List Nat) (prev : Bool),
    hasAdjSep l prev = false →
    acc.length ≤ 7 →
    8 ≤ acc.length + l.count LAYER_SEPARATOR →
    TopicWire.scan_go l i acc prev = .error (.ExceedsMaxLayerCount 9) := by
  induction l with
  | nil => intro i acc prev _ hle hcnt; simp at hcnt; omega
  | cons b rest ih =>
      intro i acc prev hadj hle hcnt
      by_cases hb : b = LAYER_SEPARATOR
      · subst hb
        simp only [hasAdjSep, beq_self_eq_true, Bool.true_and, Bool.or_eq_false_iff] at hadj
        obtain ⟨hprev, hadj'⟩ := hadj
        have hcount : (LAYER_SEPARATOR :: rest).count LAYER_SEPARATOR =
            rest.count LAYER_SEPARATOR + 1 := by simp [List.count_cons]
        by_cases hfull : acc.length ≥ MAX_SLASH_COUNT
        · have h7 : acc.length = 7 := by
            simp [MAX_SLASH_COUNT, MAXIMUM_TOPIC_LAYER] at hfull
            omega
          simp [TopicWire.scan_go, hprev, h7, MAX_SLASH_COUNT, MAXIMUM_TOPIC_LAYER]
        · simp only [TopicWire.scan_go, if_pos rfl, hprev, if_false, hfull,
            Bool.false_eq_true]
          exact ih (i + 1) (acc ++ [i % 256]) true hadj'
            (by simp [MAX_SLASH_COUNT, MAXIMUM_TOPIC_LAYER] at hfull; simp; omega)
            (by simp; rw [hcount] at hcnt; omega)
      · have hb' : (b == LAYER_SEPARATOR) = false := by simp [hb]
        simp only [hasAdjSep, hb', Bool.false_and, Bool.false_or] at hadj
        have hcount : (b :: rest).count LAYER_SEPARATOR =
            rest.count LAYER_SEPARATOR := by simp [List.count_cons, hb]
        simp only [TopicWire.scan_go, hb, if_false]
        exact ih (i + 1) acc false hadj hle (by rw [hcount] at hcnt; omega)

/-- A recorded separator offset points at a separator byte. -/
theorem sepIdxsFrom_sep (l : Buf) : ∀ i p : Nat, p ∈ sepIdxsFrom l i →
    l[p - i]? = some LAYER_SEPARATOR := by
  induction l with
  | nil => intro i p h; simp [sepIdxsFrom] at h
  | cons b rest ih =>
      intro i p h
      by_cases hb : b = LAYER_SEPARATOR
      · simp only [sepIdxsFrom, hb, if_true, List.mem_cons] at h
        rcases h with rfl | h
        · simp [hb]
        · have hge := sepIdxsFrom_mem rest (i + 1) p h
          have := ih (i + 1) p h
          have harith : p - i = (p - (i + 1)) + 1 := by omega
          rw [harith, List.getElem?_cons_succ]
          exact this
      · simp only [sepIdxsFrom, hb, if_false] at h
        have hge := sepIdxsFrom_mem rest (i + 1) p h
        have := ih (i + 1) p h
        have harith : p - i = (p - (i + 1)) + 1 := by omega
        rw [harith, List.getElem?_cons_succ]
        exact this

theorem intercalate_single (s x : Buf) : List.intercalate s [x] = x := by
  simp [List.intercalate]

theorem intercalate_cons_cons (s x y : Buf) (L : List Buf) :
    List.intercalate s (x :: y :: L) = x ++ s ++ List.intercalate s (y :: L) := by
  simp [List.intercalate, List.intersperse]

theorem layersOf_go_ne_nil (raw : Buf) (start : Nat) (ps : List Nat) :
    layersOf_go raw start ps ≠ [] := by
  cases ps <;> simp [layersOf_go]

/-- Joining the slices with the separator reconstructs the buffer. -/
theorem join_layersOf_go (ps : List Nat) : ∀ start : Nat, ∀ raw : Buf,
    (∀ p ∈ ps, start ≤ p ∧ p < raw.length ∧ raw[p]? = some LAYER_SEPARATOR) →
    ps.Pairwise (· < ·) →
    List.intercalate [LAYER_SEPARATOR] (layersOf_go raw start ps) = raw.drop start := by
  induction ps with
  | nil => intro start raw _ _; simp [layersOf_go, intercalate_single]
  | cons p ps ih =>
      intro start raw hmem hsort
      obtain ⟨hstart, hplen, hpsep⟩ := hmem p (by simp)
      have hsort' : ps.Pairwise (· < ·) := (List.pairwise_cons.mp hsort).2
      have hgt : ∀ q ∈ ps, p < q := (List.pairwise_cons.mp hsort).1
      have hmem' : ∀ q ∈ ps, p + 1 ≤ q ∧ q < raw.length ∧
          raw[q]? = some LAYER_SEPARATOR := by
        intro q hq
        obtain ⟨_, h2, h3⟩ := hmem q (by simp [hq])
        exact ⟨hgt q hq, h2, h3⟩
      have hrec := ih (p + 1) raw hmem' hsort'
      simp only [layersOf_go]
      rcases hL : layersOf_go raw (p + 1) ps with _ | ⟨x, L⟩
      · exact absurd hL (layersOf_go_ne_nil raw (p + 1) ps)
      · rw [intercalate_cons_cons, ← hL, hrec]
        have hget : raw[p] = LAYER_SEPARATOR := by
          have := List.getElem?_eq_getElem (l := raw) (n := p) hplen
          rw [this] at hpsep
          exact Option.some.inj hpsep
        have hdropp : raw.drop p = LAYER_SEPARATOR :: raw.drop (p + 1) := by
          rw [List.drop_eq_getElem_cons hplen, hget]
        have hsplit : raw.drop start =
            (raw.drop start).take (p - start) ++ (raw.drop start).drop (p - start) :=
          (List.take_append_drop _ _).symm
        have hdd : (raw.drop start).drop (p - start) = raw.drop p := by
          rw [List.drop_drop]
          congr 1
          omega
        conv_rhs => rw [hsplit, hdd, hdropp]
        simp

/-- The slice arithmetic of `TopicWire::layer`, expressed on `layersOf_go`. -/
theorem layersOf_go_getD (ps : List Nat) : ∀ (raw : Buf) (start i : Nat),
    i ≤ ps.length →
    (layersOf_go raw start ps).getD i [] =
      (raw.drop (if i = 0 then start else ps.getD (i - 1) 0 + 1)).take
        ((if i < ps.length then ps.getD i 0 else raw.length) -
          (if i = 0 then start else ps.getD (i - 1) 0 + 1)) := by
  induction ps with
  | nil =>
      intro raw start i hi
      have hz : i = 0 := by simpa using hi
      subst hz
      simp only [layersOf_go, List.getD_cons_zero, List.length_nil]
      norm_num
  | cons p ps ih =>
      intro raw start i hi
      match i with
      | 0 =>
          simp [layersOf_go]
      | j + 1 =>
          have hj : j ≤ ps.length := by simpa using hi
          simp only [layersOf_go, List.getD_cons_succ]
          rw [ih raw (p + 1) j hj]
          match j with
          | 0 =>
              by_cases hlen : 0 < ps.length
              · simp [hlen, Nat.succ_lt_succ_iff]
              · simp [hlen, Nat.succ_lt_succ_iff]
          | k + 1 =>
              by_cases hlen : k + 1 < ps.length
              · simp [hlen, Nat.succ_lt_succ_iff]
              · simp [hlen, Nat.succ_lt_succ_iff]

/-- `TopicWire::layer` agrees with the slice list `layersOf`. -/
theorem wire_layer_eq (raw : Buf) (ps : List Nat) (i : Nat) (h : i ≤ ps.length) :
    TopicWire.layer ⟨raw, ps.length + 1, ps⟩ i = (layersOf raw ps).getD i [] := by
  rw [layersOf, layersOf_go_getD ps raw 0 i h]
  simp only [TopicWire.layer]
  have hiff : i + 1 < ps.length + 1 ↔ i < ps.length := by omega
  split_ifs with h1 h2 h3 h4 <;> first | rfl | omega

/-- Indexing a list of slices by `range`/`getD` reproduces the list. -/
theorem map_range_getD (L : List Buf) :
    (List.range L.length).map (fun i => L.getD i []) = L := by
  apply List.ext_getElem (by simp)
  intro i h1 h2
  simp only [List.getElem_map, List.getElem_range]
  exact List.getD_eq_getElem L [] (by simpa using h2)

/-- The classification loop fails exactly when some processed index is a
non-terminal layer containing the multi-layer wildcard. -/
theorem classify_go_error_iff (wire : TopicWire) : ∀ (l : List Nat) (hs hm : Bool),
    TopicFilter.classify_go wire l hs hm = .error .MultiLayerWildcardNotTerminal ↔
      ∃ i ∈ l, (wire.layer i).contains MULTI_LAYER_WILDCARD = true ∧
        i + 1 ≠ wire.layer_count := by
  intro l
  induction l with
  | nil => intro hs hm; simp [TopicFilter.classify_go]
  | cons j l ih =>
      intro hs hm
      by_cases hbad : (wire.layer j).contains MULTI_LAYER_WILDCARD = true ∧
          j + 1 ≠ wire.layer_count
      · have hcond : ((wire.layer j).contains MULTI_LAYER_WILDCARD &&
            !(decide (j + 1 = wire.layer_count))) = true := by
          obtain ⟨h1, h2⟩ := hbad
          rw [h1]
          simp [h2]
        simp only [TopicFilter.classify_go, hcond, if_true]
        constructor
        · intro _; exact ⟨j, by simp, hbad⟩
        · intro _; trivial
      · have hcond : ((wire.layer j).contains MULTI_LAYER_WILDCARD &&
            !(decide (j + 1 = wire.layer_count))) = false := by
          rcases Decidable.not_and_iff_or_not.mp hbad with h | h
          · simp only [Bool.and_eq_false_iff]
            left
            exact Bool.not_eq_true _ ▸ (by simpa using h)
          · have : j + 1 = wire.layer_count := by
              by_contra hc
              exact h hc
            simp [this]
        simp only [TopicFilter.classify_go, hcond, Bool.false_eq_true, if_false]
        rw [ih]
        constructor
        · intro ⟨i, hi, h⟩; exact ⟨i, by simp [hi], h⟩
        · intro ⟨i, hi, h⟩
          rcases List.mem_cons.mp hi with rfl | hi
          · exact absurd h hbad
          · exact ⟨i, hi, h⟩

/-- The classification loop succeeds when every processed multi-layer
wildcard sits in the terminal layer, accumulating the two booleans. -/
theorem classify_go_ok (wire : TopicWire) : ∀ (l : List Nat) (hs hm : Bool),
    (∀ i ∈ l, (wire.layer i).contains MULTI_LAYER_WILDCARD = true →
      i + 1 = wire.layer_count) →
    TopicFilter.classify_go wire l hs hm =
      .ok (hs || l.any (fun i => (wire.layer i).contains SINGLE_LAYER_WILDCARD),
        hm || l.any (fun i => (wire.layer i).contains MULTI_LAYER_WILDCARD)) := by
  intro l
  induction l with
  | nil => intro hs hm _; simp [TopicFilter.classify_go]
  | cons j l ih =>
      intro hs hm hgood
      have hcond : ((wire.layer j).contains MULTI_LAYER_WILDCARD &&
          !(decide (j + 1 = wire.layer_count))) = false := by
        by_cases hj : (wire.layer j).contains MULTI_LAYER_WILDCARD = true
        · simp [hgood j (by simp) hj]
        · simp only [Bool.and_eq_false_iff]
          left
          simpa using hj
      simp only [TopicFilter.classify_go, hcond, Bool.false_eq_true, if_false]
      rw [ih _ _ (fun i hi => hgood i (by simp [hi]))]
      simp [Bool.or_assoc]

/-! Protocol crate: commands, errors, fixed header, messages, codecs. -/

/-- Model of `protocol::Command` with its fixed one-byte codes. -/
inductive Command where
  | INFO
  | CONNECT
  | PUB
  | SUB
  | UNSUB
  | MSG
  | PING
  | PONG
  | OK
  | ERR
deriving DecidableEq

/-- The `repr(u8)` discriminants of `Command`. -/
def Command.toNat : Command → Nat
  | .INFO => 0x1
  | .CONNECT => 0x2
  | .PUB => 0x3
  | .SUB => 0x4
  | .UNSUB => 0x5
  | .MSG => 0x6
  | .PING => 0x7
  | .PONG => 0x8
  | .OK => 0x9
  | .ERR => 0xA

/-- Error type `protocol::error::DecodeError`. -/
inductive DecodeError where
  | BufferTooShort (expected actual : Nat)
  | VariableLengthOverflow
  | UnknownCommand (b : Nat)
  | UnsupportedCommand (c : Command)
  | UnknownAuthType (b : Nat)
  | InvalidTopic (e : TopicError)
deriving DecidableEq

/-- Error type `protocol::error::EncodeError`. -/
inductive EncodeError where
  | WrongDirection
deriving DecidableEq

/-- Model of `impl TryFrom<u8> for Command` (the `match` on the raw byte
is an equality chain over the ten defined codes). -/
def Command.try_from (value : Nat) : Except DecodeError Command :=
  if value = 0x1 then .ok .INFO
  else if value = 0x2 then .ok .CONNECT
  else if value = 0x3 then .ok .PUB
  else if value = 0x4 then .ok .SUB
  else if value = 0x5 then .ok .UNSUB
  else if value = 0x6 then .ok .MSG
  else if value = 0x7 then .ok .PING
  else if value = 0x8 then .ok .PONG
  else if value = 0x9 then .ok .OK
  else if value = 0xA then .ok .ERR
  else .error (.UnknownCommand value)

/-- Model of `impl From<WireError> for DecodeError`. -/
def wireToDecode : WireError → DecodeError
  | .BufferTooShort expected actual => .BufferTooShort expected actual
  | .VariableLengthOverflow => .VariableLengthOverflow

/-- The protocol crate re-implements the wire readers against
`DecodeError` (protocol/src/wire.rs) with byte-identical behaviour; the
models compose the shared primitive with the error conversion. -/
def protocol.read_u8 (src : Buf) : Except DecodeError (Nat × Buf) :=
  (Ocypode.read_u8 src).mapError wireToDecode

def protocol.read_u16 (src : Buf) : Except DecodeError (Nat × Buf) :=
  (Ocypode.read_u16 src).mapError wireToDecode

def protocol.read_u32 (src : Buf) : Except DecodeError (Nat × Buf) :=
  (Ocypode.read_u32 src).mapError wireToDecode

def protocol.read_varint (src : Buf) : Except DecodeError (Nat × Buf) :=
  (Ocypode.read_varint src).mapError wireToDecode

def protocol.read_length_prefixed_u8 (src : Buf) : Except DecodeError (Buf × Buf) :=
  (Ocypode.read_length_prefixed_u8 src).mapError wireToDecode

def protocol.read_length_prefixed_u16 (src : Buf) : Except DecodeError (Buf × Buf) :=
  (Ocypode.read_length_prefixed_u16 src).mapError wireToDecode

/-- Model of `protocol::header::FixedHeader`. -/
structure FixedHeader where
  command : Command
  flags : Nat
  remaining_length : Nat
deriving DecidableEq

/-- Model of `FixedHeader::decode`: requires two bytes, splits byte 0
into command nibble and flags nibble, then reads the varint. -/
def FixedHeader.decode (src : Buf) : Except DecodeError (FixedHeader × Buf) :=
  if src.length < 2 then .error (.BufferTooShort 2 src.length)
  else do
    let command ← Command.try_from (src.headD 0 >>> 4)
    let (remaining_length, rest') ← (read_varint src.tail).mapError wireToDecode
    pure (⟨command, src.headD 0 &&& 15, remaining_length⟩, rest')

/-- Model of `FixedHeader::encode`. -/
def FixedHeader.encode (h : FixedHeader) : Buf :=
  (h.command.toNat <<< 4 ||| (h.flags &&& 15)) :: put_varint h.remaining_length

def AUTH_REQUIRED_BIT : Nat := 0x01
def HEADERS_BIT : Nat := 0x02

/-- Model of `message::info::Info`. -/
structure Info where
  version : Nat
  max_payload : Nat
  server_id : Buf
  server_name : Buf
  auth_required : Bool
  headers : Bool
deriving DecidableEq

/-- `Info` keeps the trait default flags. -/
def Info.flags (_ : Info) : Nat := 0

/-- Model of `Info::encode` (writes the id/name length prefixes inline). -/
def Info.encode (m : Info) : Buf :=
  m.version :: put_u32 m.max_payload ++
    (m.server_id.length % 256) :: m.server_id ++
    (m.server_name.length % 256) :: m.server_name ++
    [(cond m.auth_required 1 0) * AUTH_REQUIRED_BIT |||
      (cond m.headers 1 0) * HEADERS_BIT]

/-- Model of `Info::decode`. -/
def Info.decode (_flags : Nat) (src : Buf) : Except DecodeError (Info × Buf) := do
  let (version, src) ← protocol.read_u8 src
  let (max_payload, src) ← protocol.read_u32 src
  let (server_id, src) ← protocol.read_length_prefixed_u8 src
  let (server_name, src) ← protocol.read_length_prefixed_u8 src
  let (capability_flags, src) ← protocol.read_u8 src
  .ok (⟨version, max_payload, server_id, server_name,
    capability_flags &&& AUTH_REQUIRED_BIT != 0,
    capability_flags &&& HEADERS_BIT != 0⟩, src)

def VERBOSE_BIT : Nat := 0x01
def HAS_AUTH_BIT : Nat := 0x02
def AUTH_TYPE_PASSWORD : Nat := 1
def AUTH_TYPE_JWT : Nat := 2

/-- Model of `message::connect::Auth`. -/
inductive Auth where
  | Password (username password : Buf)
  | Jwt (token : Buf)
deriving DecidableEq

/-- Model of `message::connect::Connect`. -/
structure Connect where
  version : Nat
  verbose : Bool
  auth : Option Auth
deriving DecidableEq

/-- Model of `Connect::flags`. -/
def Connect.flags (m : Connect) : Nat :=
  (cond m.verbose VERBOSE_BIT 0) ||| (cond m.auth.isSome HAS_AUTH_BIT 0)

/-- Model of `Connect::encode`: version byte, then (when auth is present)
the auth type byte, the varint auth payload length, and the payload. -/
def Connect.encode (m : Connect) : Buf :=
  m.version ::
    match m.auth with
    | none => []
    | some (.Password username password) =>
        let auth_payload :=
          put_length_prefixed_u8 username ++ put_length_prefixed_u8 password
        AUTH_TYPE_PASSWORD :: put_varint (auth_payload.length % 4294967296) ++ auth_payload
    | some (.Jwt token) =>
        let auth_payload := put_length_prefixed_u16 token
        AUTH_TYPE_JWT :: put_varint (auth_payload.length % 4294967296) ++ auth_payload

/-- Model of `Connect::decode`. -/
def Connect.decode (flags : Nat) (src : Buf) : Except DecodeError (Connect × Buf) := do
  let verbose := flags &&& VERBOSE_BIT != 0
  let has_auth := flags &&& HAS_AUTH_BIT != 0
  let (version, src) ← protocol.read_u8 src
  if has_auth then
    let (auth_type, src) ← protocol.read_u8 src
    let (auth_payload_length, src) ← protocol.read_varint src
    if src.length < auth_payload_length then
      .error (.BufferTooShort auth_payload_length src.length)
    else
      let auth_payload := src.take auth_payload_length
      let src := src.drop auth_payload_length
      if auth_type = AUTH_TYPE_PASSWORD then do
        let (username, auth_payload) ← protocol.read_length_prefixed_u8 auth_payload
        let (password, _) ← protocol.read_length_prefixed_u8 auth_payload
        .ok (⟨version, verbose, some (.Password username password)⟩, src)
      else if auth_type = AUTH_TYPE_JWT then do
        let (token, _) ← protocol.read_length_prefixed_u16 auth_payload
        .ok (⟨version, verbose, some (.Jwt token)⟩, src)
      else
        .error (.UnknownAuthType auth_type)
  else
    .ok (⟨version, verbose, none⟩, src)

/-- Modelled from the spec: the `Headers` implementation used by PUB and
MSG is not present under `src/` — protocol/src/wire.rs declares only an
opaque `Headers` newtype while publish.rs calls `new`, `insert`,
`entries`, `encode_to` and `decode_from` on it.  Per spec §3/§4.4 it is
an ordered, duplicate-permitting sequence of key/value byte pairs. -/
structure Headers where
  entries : List (Buf × Buf)
deriving DecidableEq

/-- Modelled from the spec: an empty headers block. -/
def Headers.new : Headers := ⟨[]⟩

/-- Modelled from the spec: append an entry, preserving insertion order
and permitting duplicate keys. -/
def Headers.insert (h : Headers) (key value : Buf) : Headers :=
  ⟨h.entries ++ [(key, value)]⟩

/-- Modelled from the spec (§4.4): each entry in insertion order is a
1-byte-length-prefixed key followed by a 2-byte-length-prefixed value,
with no overall count prefix. -/
def Headers.encode_to (h : Headers) : Buf :=
  (h.entries.map fun e =>
    put_length_prefixed_u8 e.1 ++ put_length_prefixed_u16 e.2).flatten

/-- Modelled from the spec (§4.4): read (key, value) pairs until the
pre-sliced block is exhausted; a short read fails via the primitives.
Each iteration consumes at least three bytes, so the structural fuel
(the block length) is never exhausted before the buffer is. -/
def Headers.decode_go : Nat → Buf → Except DecodeError (List (Buf × Buf))
  | _, [] => .ok []
  | 0, _ :: _ => .error (.BufferTooShort 1 0)
  | fuel + 1, b :: src => do
      let (key, src) ← protocol.read_length_prefixed_u8 (b :: src)
      let (value, src) ← protocol.read_length_prefixed_u16 src
      let rest ← Headers.decode_go fuel src
      .ok ((key, value) :: rest)

/-- Modelled from the spec (§4.4): decode a pre-sliced headers block. -/
def Headers.decode_from (src : Buf) : Except DecodeError Headers :=
  (Headers.decode_go src.length src).map Headers.mk

def HAS_REPLY_TO_BIT : Nat := 0x01
def HAS_HEADER_BIT : Nat := 0x02

/-- Model of `message::publish::Pub`. -/
structure Pub where
  topic : Topic
  reply_to : Option Topic
  header : Option Headers
  payload : Buf
deriving DecidableEq

/-- Model of `Pub::flags`. -/
def Pub.flags (m : Pub) : Nat :=
  (cond m.reply_to.isSome HAS_REPLY_TO_BIT 0) |||
    (cond m.header.isSome HAS_HEADER_BIT 0)

/-- Model of `Pub::encode`. -/
def Pub.encode (m : Pub) : Buf :=
  m.topic.encode_to ++
    (match m.reply_to with
      | some reply_to => reply_to.encode_to
      | none => []) ++
    (match m.header with
      | some header => put_length_prefixed_u16 header.encode_to
      | none => []) ++
    put_varint (m.payload.length % 4294967296) ++ m.payload

/-- Model of `Pub::decode`. -/
def Pub.decode (flags : Nat) (src : Buf) : Except DecodeError (Pub × Buf) := do
  let has_reply_to := flags &&& HAS_REPLY_TO_BIT != 0
  let has_header := flags &&& HAS_HEADER_BIT != 0
  let (topic, src) ← (Topic.decode src).mapError DecodeError.InvalidTopic
  let (reply_to, src) ←
    if has_reply_to then do
      let (reply_to, src) ← (Topic.decode src).mapError DecodeError.InvalidTopic
      pure (some reply_to, src)
    else pure (none, src)
  let (header, src) ←
    if has_header then do
      let (header_bytes, src) ← protocol.read_length_prefixed_u16 src
      let header ← Headers.decode_from header_bytes
      pure (some header, src)
    else pure (none, src)
  let (payload_size, src) ← protocol.read_varint src
  if src.length < payload_size then
    .error (.BufferTooShort payload_size src.length)
  else
    .ok (⟨topic, reply_to, header, src.take payload_size⟩, src.drop payload_size)

def HAS_QUEUE_GROUP_BIT : Nat := 0x01

/-- Model of `message::sub::Sub`. -/
structure Sub where
  topic : TopicFilter
  subscription_id : Buf
  queue_group : Option Buf
deriving DecidableEq

/-- Model of `Sub::flags`. -/
def Sub.flags (m : Sub) : Nat :=
  cond m.queue_group.isSome HAS_QUEUE_GROUP_BIT 0

/-- Model of `Sub::encode`. -/
def Sub.encode (m : Sub) : Buf :=
  m.topic.encode_to ++ put_length_prefixed_u16 m.subscription_id ++
    (match m.queue_group with
      | some queue_group => put_length_prefixed_u8 queue_group
      | none => [])

/-- Model of `Sub::decode`. -/
def Sub.decode (flags : Nat) (src : Buf) : Except DecodeError (Sub × Buf) := do
  let has_queue_group := flags &&& HAS_QUEUE_GROUP_BIT != 0
  let (topic, src) ← (TopicFilter.decode src).mapError DecodeError.InvalidTopic
  let (subscription_id, src) ← protocol.read_length_prefixed_u16 src
  if has_queue_group then do
    let (queue_group, src) ← protocol.read_length_prefixed_u8 src
    .ok (⟨topic, subscription_id, some queue_group⟩, src)
  else
    .ok (⟨topic, subscription_id, none⟩, src)

/-- Model of `message::unsub::Unsub`. -/
structure Unsub where
  subscription_id : Buf
deriving DecidableEq

/-- `Unsub` keeps the trait default flags. -/
def Unsub.flags (_ : Unsub) : Nat := 0

/-- Model of `Unsub::encode`. -/
def Unsub.encode (m : Unsub) : Buf :=
  put_length_prefixed_u16 m.subscription_id

/-- Model of `Unsub::decode`. -/
def Unsub.decode (_flags : Nat) (src : Buf) : Except DecodeError (Unsub × Buf) := do
  let (subscription_id, src) ← protocol.read_length_prefixed_u16 src
  .ok (⟨subscription_id⟩, src)

/-- Modelled from the spec: the MSG codec (`message/msg.rs`) is not
present under `src/`, though codec.rs imports and dispatches it and
`Message::Msg` is constructed there.  Per spec §4.5 its payload is:
topic (topic-wire), subscription_id (2-prefixed), optional reply_to
(flag bit 0, topic-wire), optional header block (flag bit 1,
2-prefixed), varint payload length, payload bytes. -/
structure Msg where
  topic : Topic
  subscription_id : Buf
  reply_to : Option Topic
  header : Option Headers
  payload : Buf
deriving DecidableEq

/-- Modelled from the spec: MSG shares the PUB flag bits. -/
def Msg.flags (m : Msg) : Nat :=
  (cond m.reply_to.isSome HAS_REPLY_TO_BIT 0) |||
    (cond m.header.isSome HAS_HEADER_BIT 0)

/-- Modelled from the spec: MSG payload layout (see `Msg`). -/
def Msg.encode (m : Msg) : Buf :=
  m.topic.encode_to ++ put_length_prefixed_u16 m.subscription_id ++
    (match m.reply_to with
      | some reply_to => reply_to.encode_to
      | none => []) ++
    (match m.header with
      | some header => put_length_prefixed_u16 header.encode_to
      | none => []) ++
    put_varint (m.payload.length % 4294967296) ++ m.payload

/-- Modelled from the spec: MSG decode, mirroring `Msg.encode`. -/
def Msg.decode (flags : Nat) (src : Buf) : Except DecodeError (Msg × Buf) := do
  let has_reply_to := flags &&& HAS_REPLY_TO_BIT != 0
  let has_header := flags &&& HAS_HEADER_BIT != 0
  let (topic, src) ← (Topic.decode src).mapError DecodeError.InvalidTopic
  let (subscription_id, src) ← protocol.read_length_prefixed_u16 src
  let (reply_to, src) ←
    if has_reply_to then do
      let (reply_to, src) ← (Topic.decode src).mapError DecodeError.InvalidTopic
      pure (some reply_to, src)
    else pure (none, src)
  let (header, src) ←
    if has_header then do
      let (header_bytes, src) ← protocol.read_length_prefixed_u16 src
      let header ← Headers.decode_from header_bytes
      pure (some header, src)
    else pure (none, src)
  let (payload_size, src) ← protocol.read_varint src
  if src.length < payload_size then
    .error (.BufferTooShort payload_size src.length)
  else
    .ok (⟨topic, subscription_id, reply_to, header, src.take payload_size⟩,
      src.drop payload_size)

/-- Model of `message::Message` (the `Msg` variant is used by codec.rs;
see `Msg`). -/
inductive Message where
  | Info (m : Info)
  | Connect (m : Connect)
  | Pub (m : Pub)
  | Sub (m : Sub)
  | Unsub (m : Unsub)
  | Msg (m : Msg)
deriving DecidableEq

/-- Model of `wire::wire_frame`, specialized by command and flags: byte 0
is `command << 4 | (flags & 0x0F)`, then the varint of the payload length
(`payload.len() as u32`), then the payload. -/
def wire_frame (command : Command) (flags : Nat) (payload : Buf) : Buf :=
  (command.toNat <<< 4 ||| (flags &&& 15)) ::
    put_varint (payload.length % 4294967296) ++ payload

/-- Model of `ServerCodec::encode`. -/
def ServerCodec.encode (message : Message) : Except EncodeError Buf :=
  match message with
  | .Info m => .ok (wire_frame .INFO m.flags m.encode)
  | .Msg m => .ok (wire_frame .MSG m.flags m.encode)
  | _ => .error .WrongDirection

/-- Model of `ServerCodec::decode`. -/
def ServerCodec.decode (src : Buf) : Except DecodeError Message := do
  let (header, src) ← FixedHeader.decode src
  match header.command with
  | .CONNECT => (Connect.decode header.flags src).map fun p => .Connect p.1
  | .PUB => (Pub.decode header.flags src).map fun p => .Pub p.1
  | .SUB => (Sub.decode header.flags src).map fun p => .Sub p.1
  | .UNSUB => (Unsub.decode header.flags src).map fun p => .Unsub p.1
  | other => .error (.UnsupportedCommand other)

/-- Model of `ClientCodec::decode`. -/
def ClientCodec.decode (src : Buf) : Except DecodeError Message := do
  let (header, src) ← FixedHeader.decode src
  match header.command with
  | .INFO => (Info.decode header.flags src).map fun p => .Info p.1
  | .MSG => (Msg.decode header.flags src).map fun p => .Msg p.1
  | other => .error (.UnsupportedCommand other)

/-- Model of `ClientCodec::encode`. -/
def ClientCodec.encode (message : Message) : Except EncodeError Buf :=
  match message with
  | .Connect m => .ok (wire_frame .CONNECT m.flags m.encode)
  | .Pub m => .ok (wire_frame .PUB m.flags m.encode)
  | .Sub m => .ok (wire_frame .SUB m.flags m.encode)
  | .Unsub m => .ok (wire_frame .UNSUB m.flags m.encode)
  | _ => .error .WrongDirection

/-! Round-trip lemmas for the per-command codecs. -/

@[simp] theorem ebind_ok {α β ε : Type} (a : α) (f : α → Except ε β) :
    (Except.ok a : Except ε α) >>= f = f a := rfl

@[simp] theorem ebind_error {α β ε : Type} (e : ε) (f : α → Except ε β) :
    (Except.error e : Except ε α) >>= f = .error e := rfl

@[simp] theorem epure_bind {α β ε : Type} (a : α) (f : α → Except ε β) :
    (pure a : Except ε α) >>= f = f a := rfl

@[simp] theorem emap_ok {α β ε : Type} (a : α) (f : α → β) :
    (Except.ok a : Except ε α).map f = .ok (f a) := rfl

@[simp] theorem emap_error {α β ε : Type} (e : ε) (f : α → β) :
    (Except.error e : Except ε α).map f = .error e := rfl

@[simp] theorem emapError_ok {α ε ε' : Type} (a : α) (f : ε → ε') :
    (Except.ok a : Except ε α).mapError f = .ok a := rfl

@[simp] theorem emapError_error {α ε ε' : Type} (e : ε) (f : ε → ε') :
    (Except.error e : Except ε α).mapError f = .error (f e) := rfl

theorem protocol_read_u8_cons (b : Nat) (rest : Buf) :
    protocol.read_u8 (b :: rest) = .ok (b, rest) := rfl

theorem protocol_read_u32_put (v : Nat) (h : v < 4294967296) (rest : Buf) :
    protocol.read_u32 (put_u32 v ++ rest) = .ok (v, rest) := by
  rw [protocol.read_u32, read_put_u32 v (by norm_num; omega) rest, emapError_ok]

theorem protocol_read_lp8_put (l : Buf) (h : l.length ≤ 255) (rest : Buf) :
    protocol.read_length_prefixed_u8 (put_length_prefixed_u8 l ++ rest) = .ok (l, rest) := by
  rw [protocol.read_length_prefixed_u8, read_put_lp8 l h rest, emapError_ok]

theorem protocol_read_lp16_put (l : Buf) (h : l.length ≤ 65535) (rest : Buf) :
    protocol.read_length_prefixed_u16 (put_length_prefixed_u16 l ++ rest) = .ok (l, rest) := by
  rw [protocol.read_length_prefixed_u16, read_put_lp16 l h rest, emapError_ok]

theorem protocol_read_varint_put (v : Nat) (h : v < 268435456) (rest : Buf) :
    protocol.read_varint (put_varint v ++ rest) = .ok (v, rest) := by
  rw [protocol.read_varint, read_put_varint v (by norm_num; omega) rest, emapError_ok]

/-- The 1-byte length prefix written inline by `Info::encode`, in the
cons-normalized buffer shape. -/
theorem read_lp8_inline (l : Buf) (h : l.length ≤ 255) (rest : Buf) :
    protocol.read_length_prefixed_u8 ((l.length % 256) :: (l ++ rest)) = .ok (l, rest) := by
  have hshape : (l.length % 256) :: (l ++ rest) = put_length_prefixed_u8 l ++ rest := by
    simp [put_length_prefixed_u8]
  rw [hshape, protocol_read_lp8_put l h rest]

/-- Capability byte round trip for the two `Info` booleans. -/
theorem cap_byte_rt (a h : Bool) :
    ((((cond a 1 0) * AUTH_REQUIRED_BIT ||| (cond h 1 0) * HEADERS_BIT) &&&
        AUTH_REQUIRED_BIT != 0) = a ∧
      (((cond a 1 0) * AUTH_REQUIRED_BIT ||| (cond h 1 0) * HEADERS_BIT) &&&
        HEADERS_BIT != 0) = h) := by
  cases a <;> cases h <;> decide

/-- Field bounds under which `Info` round-trips (`u8`/`u32` fields are in
range by their Rust types; the length-prefixed fields must fit their
1-byte prefixes). -/
def Info.size_ok (m : Info) : Prop :=
  m.version < 256 ∧ m.max_payload < 4294967296 ∧
    m.server_id.length ≤ 255 ∧ m.server_name.length ≤ 255

theorem info_rt (m : Info) (h : m.size_ok) (fl : Nat) (rest : Buf) :
    Info.decode fl (m.encode ++ rest) = .ok (m, rest) := by
  obtain ⟨version, max_payload, server_id, server_name, auth_required, headers⟩ := m
  simp only [Info.size_ok] at h
  obtain ⟨h1, h2, h3, h4⟩ := h
  have hcap := cap_byte_rt auth_required headers
  simp only [Info.encode, Info.decode, List.cons_append, List.nil_append,
    List.append_assoc, protocol_read_u8_cons, ebind_ok,
    protocol_read_u32_put _ h2, read_lp8_inline _ h3, read_lp8_inline _ h4,
    hcap.1, hcap.2]

/-! Topic round trips: a successfully decoded wire value re-decodes from
its own encoding, because the validations are deterministic in the raw
bytes that the wire value stores unchanged. -/

theorem from_raw_raw_eq {raw : Buf} {w : TopicWire}
    (h : TopicWire.from_raw raw = .ok w) : w.raw = raw := by
  unfold TopicWire.from_raw at h
  cases h1 : TopicWire.validate_length raw <;> rw [h1] at h
  · exact absurd h (by simp)
  cases h2 : TopicWire.validate_no_edge_slash raw <;> rw [h2] at h
  · exact absurd h (by simp)
  cases h3 : TopicWire.scan_slashes raw with
  | error e => rw [h3] at h; exact absurd h (by simp)
  | ok p =>
      obtain ⟨sp, lc⟩ := p
      rw [h3] at h
      simp only [ebind_ok] at h
      have := Except.ok.inj h
      rw [← this]

theorem from_raw_len {raw : Buf} {w : TopicWire}
    (h : TopicWire.from_raw raw = .ok w) :
    1 ≤ raw.length ∧ raw.length ≤ 256 := by
  unfold TopicWire.from_raw at h
  cases h1 : TopicWire.validate_length raw <;> rw [h1] at h
  · exact absurd h (by simp)
  unfold TopicWire.validate_length at h1
  split at h1
  · exact absurd h1 (by simp)
  · rename_i hcond
    simp only [MAXIMUM_TOPIC_LENGTH] at hcond
    omega

theorem topicwire_decode_from_raw {src : Buf} {w : TopicWire} {rest : Buf}
    (h : TopicWire.decode src = .ok (w, rest)) :
    TopicWire.from_raw w.raw = .ok w := by
  unfold TopicWire.decode at h
  cases hr : read_length_prefixed_u16 src <;> rw [hr] at h <;>
    simp only [emapError_ok, emapError_error, ebind_ok, ebind_error] at h
  · exact absurd h (by simp)
  · rename_i p
    obtain ⟨raw, rest₀⟩ := p
    cases hf : TopicWire.from_raw raw <;> rw [hf] at h <;>
      simp only [ebind_ok, ebind_error] at h
    · exact absurd h (by simp)
    · rename_i w'
      have hpair := Except.ok.inj h
      have hw : w' = w := congrArg Prod.fst hpair
      subst hw
      rw [from_raw_raw_eq hf]
      exact hf

theorem topicwire_rt {w : TopicWire} (h : TopicWire.from_raw w.raw = .ok w)
    (rest' : Buf) : TopicWire.decode (w.encode_to ++ rest') = .ok (w, rest') := by
  have hlen := from_raw_len h
  unfold TopicWire.decode
  rw [TopicWire.encode_to, read_put_lp16 w.raw (by omega) rest']
  simp only [emapError_ok, ebind_ok]
  rw [h]
  rfl

theorem topic_rt {src : Buf} {t : Topic} {rest : Buf}
    (h : Topic.decode src = .ok (t, rest)) (rest' : Buf) :
    Topic.decode (t.encode_to ++ rest') = .ok (t, rest') := by
  unfold Topic.decode at h ⊢
  cases hw : TopicWire.decode src <;> rw [hw] at h <;>
    simp only [ebind_ok, ebind_error] at h
  · exact absurd h (by simp)
  · rename_i p
    obtain ⟨w, rest₀⟩ := p
    split at h
    · exact absurd h (by simp)
    · rename_i hwild
      have hpair := Except.ok.inj h
      have ht : t = ⟨w⟩ := (congrArg Prod.fst hpair).symm
      subst ht
      have hrt := topicwire_rt (topicwire_decode_from_raw hw) rest'
      simp only [Topic.encode_to]
      rw [hrt]
      simp only [ebind_ok]
      rw [if_neg hwild]

theorem topic_filter_rt {src : Buf} {t : TopicFilter} {rest : Buf}
    (h : TopicFilter.decode src = .ok (t, rest)) (rest' : Buf) :
    TopicFilter.decode (t.encode_to ++ rest') = .ok (t, rest') := by
  unfold TopicFilter.decode at h ⊢
  cases hw : TopicWire.decode src <;> rw [hw] at h <;>
    simp only [ebind_ok, ebind_error] at h
  · exact absurd h (by simp)
  · rename_i p
    obtain ⟨w, rest₀⟩ := p
    cases hc : TopicFilter.classify_wildcards w <;> rw [hc] at h <;>
      simp only [ebind_ok, ebind_error] at h
    · exact absurd h (by simp)
    · rename_i k
      have hpair := Except.ok.inj h
      have ht : t = ⟨w, k⟩ := (congrArg Prod.fst hpair).symm
      subst ht
      have hrt := topicwire_rt (topicwire_decode_from_raw hw) rest'
      simp only [TopicFilter.encode_to]
      rw [hrt]
      simp only [ebind_ok]
      rw [hc]
      rfl

theorem length_put_lp8 (l : Buf) : (put_length_prefixed_u8 l).length = l.length + 1 := by
  simp [put_length_prefixed_u8]

theorem length_put_lp16 (l : Buf) : (put_length_prefixed_u16 l).length = l.length + 2 := by
  simp [put_length_prefixed_u16, put_u16]

/-- Field bounds under which `Connect` round-trips. -/
def Connect.size_ok (m : Connect) : Prop :=
  m.version < 256 ∧
    match m.auth with
    | none => True
    | some (.Password username password) =>
        username.length ≤ 255 ∧ password.length ≤ 255
    | some (.Jwt token) => token.length ≤ 65535

theorem connect_rt (m : Connect) (h : m.size_ok) (fl : Nat)
    (hv : (fl &&& VERBOSE_BIT != 0) = m.verbose)
    (ha : (fl &&& HAS_AUTH_BIT != 0) = m.auth.isSome) (rest : Buf) :
    Connect.decode fl (m.encode ++ rest) = .ok (m, rest) := by
  obtain ⟨version, verbose, auth⟩ := m
  simp only [Connect.size_ok] at h
  simp only at hv ha
  rcases auth with _ | a
  · simp only [Option.isSome_none] at ha
    simp only [Connect.encode, Connect.decode, List.cons_append, List.nil_append,
      protocol_read_u8_cons, ebind_ok, hv, ha, Bool.false_eq_true, if_false]
  · rcases a with ⟨u, p⟩ | ⟨tok⟩
    · simp only at h
      obtain ⟨h1, h2, h3⟩ := h
      simp only [Option.isSome_some] at ha
      have hlap : (put_length_prefixed_u8 u ++ put_length_prefixed_u8 p).length
          < 268435456 := by
        simp only [List.length_append, length_put_lp8]
        omega
      have hmod : (put_length_prefixed_u8 u ++ put_length_prefixed_u8 p).length
          % 4294967296 = (put_length_prefixed_u8 u ++ put_length_prefixed_u8 p).length :=
        Nat.mod_eq_of_lt (by omega)
      simp only [Connect.encode, Connect.decode, List.cons_append, List.append_assoc,
        protocol_read_u8_cons, ebind_ok, hv, ha, if_true, hmod,
        protocol_read_varint_put _ hlap]
      rw [if_neg (by simp only [List.length_append]; omega)]
      rw [← List.append_assoc, List.take_left, List.drop_left]
      have hp2 : put_length_prefixed_u8 p = put_length_prefixed_u8 p ++ [] := by simp
      rw [protocol_read_lp8_put u h2, ebind_ok, hp2, protocol_read_lp8_put p h3,
        ebind_ok]
    · simp only at h
      obtain ⟨h1, h2⟩ := h
      simp only [Option.isSome_some] at ha
      have hlap : (put_length_prefixed_u16 tok).length < 268435456 := by
        simp only [length_put_lp16]
        omega
      have hmod : (put_length_prefixed_u16 tok).length % 4294967296 =
          (put_length_prefixed_u16 tok).length := Nat.mod_eq_of_lt (by omega)
      simp only [Connect.encode, Connect.decode, List.cons_append, List.append_assoc,
        protocol_read_u8_cons, ebind_ok, hv, ha, if_true, hmod,
        protocol_read_varint_put _ hlap]
      rw [if_neg (by simp only [List.length_append]; omega)]
      rw [List.take_left, List.drop_left]
      have hp2 : put_length_prefixed_u16 tok = put_length_prefixed_u16 tok ++ [] := by
        simp
      rw [hp2, protocol_read_lp16_put tok h2, ebind_ok, if_neg (by decide)]

/-! Headers and remaining message round trips. -/

theorem length_headers_encode_ge (entries : List (Buf × Buf)) :
    entries.length ≤ (Headers.encode_to ⟨entries⟩).length := by
  induction entries with
  | nil => simp [Headers.encode_to]
  | cons e rest ih =>
      simp only [Headers.encode_to, List.map_cons, List.flatten_cons,
        List.length_append, List.length_cons] at ih ⊢
      have h1 : (put_length_prefixed_u8 e.1).length = e.1.length + 1 :=
        length_put_lp8 e.1
      omega

theorem headers_decode_go_encode (entries : List (Buf × Buf)) : ∀ fuel : Nat,
    entries.length ≤ fuel →
    (∀ e ∈ entries, e.1.length ≤ 255 ∧ e.2.length ≤ 65535) →
    Headers.decode_go fuel (Headers.encode_to ⟨entries⟩) = .ok entries := by
  induction entries with
  | nil =>
      intro fuel _ _
      have : Headers.encode_to ⟨[]⟩ = [] := by simp [Headers.encode_to]
      rw [this]
      cases fuel <;> rfl
  | cons e rest ih =>
      intro fuel hfuel hb
      obtain ⟨k, v⟩ := e
      obtain ⟨f, rfl⟩ : ∃ f, fuel = f + 1 := ⟨fuel - 1, by simp at hfuel; omega⟩
      have hk := (hb (k, v) (by simp)).1
      have hv := (hb (k, v) (by simp)).2
      have hbuf : Headers.encode_to ⟨(k, v) :: rest⟩ =
          (k.length % 256) :: (k ++ (put_length_prefixed_u16 v ++
            Headers.encode_to ⟨rest⟩)) := by
        simp [Headers.encode_to, put_length_prefixed_u8, List.append_assoc]
      rw [hbuf]
      simp only [Headers.decode_go, read_lp8_inline k hk, ebind_ok,
        protocol_read_lp16_put v hv, ebind_ok]
      rw [ih f (by simp at hfuel; omega) (fun e he => hb e (by simp [he]))]
      rfl

theorem headers_rt (h : Headers)
    (hb : ∀ e ∈ h.entries, e.1.length ≤ 255 ∧ e.2.length ≤ 65535) :
    Headers.decode_from h.encode_to = .ok h := by
  obtain ⟨entries⟩ := h
  unfold Headers.decode_from
  rw [headers_decode_go_encode entries _ (length_headers_encode_ge entries) hb]
  rfl

/-- A topic value is well-formed when it decodes from its own encoding;
every topic produced by a successful decode is (`topic_rt`). -/
def Topic.wf (t : Topic) : Prop := Topic.decode t.encode_to = .ok (t, [])

/-- A topic filter value is well-formed when it decodes from its own
encoding. -/
def TopicFilter.wf (t : TopicFilter) : Prop :=
  TopicFilter.decode t.encode_to = .ok (t, [])

theorem topic_wf_rt {t : Topic} (h : t.wf) (rest : Buf) :
    Topic.decode (t.encode_to ++ rest) = .ok (t, rest) := topic_rt h rest

theorem topic_filter_wf_rt {t : TopicFilter} (h : t.wf) (rest : Buf) :
    TopicFilter.decode (t.encode_to ++ rest) = .ok (t, rest) := topic_filter_rt h rest

/-- Bounds for a headers block that fits its container. -/
def Headers.size_ok (h : Headers) : Prop :=
  (∀ e ∈ h.entries, e.1.length ≤ 255 ∧ e.2.length ≤ 65535) ∧
    h.encode_to.length ≤ 65535

/-- Bounds under which `Pub` round-trips. -/
def Pub.size_ok (m : Pub) : Prop :=
  m.topic.wf ∧
    (match m.reply_to with
      | none => True
      | some reply_to => reply_to.wf) ∧
    (match m.header with
      | none => True
      | some header => header.size_ok) ∧
    m.payload.length < 268435456

theorem pub_rt (m : Pub) (h : m.size_ok) (fl : Nat)
    (hr : (fl &&& HAS_REPLY_TO_BIT != 0) = m.reply_to.isSome)
    (hh : (fl &&& HAS_HEADER_BIT != 0) = m.header.isSome) (rest : Buf) :
    Pub.decode fl (m.encode ++ rest) = .ok (m, rest) := by
  obtain ⟨topic, reply_to, header, payload⟩ := m
  simp only [Pub.size_ok] at h
  obtain ⟨ht, hrw, hhw, hp⟩ := h
  simp only at hr hh
  have hmod : payload.length % 4294967296 = payload.length :=
    Nat.mod_eq_of_lt (by omega)
  rcases reply_to with _ | reply_to <;> rcases header with _ | header <;>
    simp only at hrw hhw <;>
    simp only [Option.isSome_none, Option.isSome_some] at hr hh
  · simp only [Pub.encode, Pub.decode, List.append_assoc, List.nil_append,
      topic_wf_rt ht, emapError_ok, ebind_ok, epure_bind, hr, hh, Bool.false_eq_true,
      if_false, hmod, protocol_read_varint_put _ hp]
    rw [if_neg (by simp only [List.length_append]; omega)]
    rw [List.take_left, List.drop_left]
  · obtain ⟨hhb, hhl⟩ := hhw
    simp only [Pub.encode, Pub.decode, List.append_assoc, List.nil_append,
      topic_wf_rt ht, emapError_ok, ebind_ok, epure_bind, hr, hh, Bool.false_eq_true,
      if_false, if_true, protocol_read_lp16_put _ hhl, headers_rt header hhb,
      hmod, protocol_read_varint_put _ hp]
    rw [if_neg (by simp only [List.length_append]; omega)]
    rw [List.take_left, List.drop_left]
  · simp only [Pub.encode, Pub.decode, List.append_assoc, List.nil_append,
      topic_wf_rt ht, topic_wf_rt hrw, emapError_ok, ebind_ok, epure_bind, hr, hh,
      Bool.false_eq_true, if_false, if_true, hmod,
      protocol_read_varint_put _ hp]
    rw [if_neg (by simp only [List.length_append]; omega)]
    rw [List.take_left, List.drop_left]
  · obtain ⟨hhb, hhl⟩ := hhw
    simp only [Pub.encode, Pub.decode, List.append_assoc, List.nil_append,
      topic_wf_rt ht, topic_wf_rt hrw, emapError_ok, ebind_ok, epure_bind, hr, hh,
      Bool.false_eq_true, if_false, if_true,
      protocol_read_lp16_put _ hhl, headers_rt header hhb, hmod,
      protocol_read_varint_put _ hp]
    rw [if_neg (by simp only [List.length_append]; omega)]
    rw [List.take_left, List.drop_left]

/-- Bounds under which `Sub` round-trips. -/
def Sub.size_ok (m : Sub) : Prop :=
  m.topic.wf ∧ m.subscription_id.length ≤ 65535 ∧
    (match m.queue_group with
      | none => True
      | some queue_group => queue_group.length ≤ 255)

theorem sub_rt (m : Sub) (h : m.size_ok) (fl : Nat)
    (hq : (fl &&& HAS_QUEUE_GROUP_BIT != 0) = m.queue_group.isSome) (rest : Buf) :
    Sub.decode fl (m.encode ++ rest) = .ok (m, rest) := by
  obtain ⟨topic, subscription_id, queue_group⟩ := m
  simp only [Sub.size_ok] at h
  obtain ⟨ht, hs, hqw⟩ := h
  simp only at hq
  rcases queue_group with _ | queue_group <;>
    simp only [Option.isSome_none, Option.isSome_some] at hq
  · simp only [Sub.encode, Sub.decode, List.append_assoc, List.nil_append,
      List.append_nil, topic_filter_wf_rt ht, emapError_ok, ebind_ok,
      protocol_read_lp16_put _ hs, hq, Bool.false_eq_true, if_false]
  · simp only at hqw
    simp only [Sub.encode, Sub.decode, List.append_assoc, List.append_nil,
      topic_filter_wf_rt ht, emapError_ok, ebind_ok, epure_bind,
      protocol_read_lp16_put _ hs, hq, if_true]
    rw [protocol_read_lp8_put queue_group hqw, ebind_ok]

/-- Bounds under which `Unsub` round-trips. -/
def Unsub.size_ok (m : Unsub) : Prop := m.subscription_id.length ≤ 65535

theorem unsub_rt (m : Unsub) (h : m.size_ok) (fl : Nat) (rest : Buf) :
    Unsub.decode fl (m.encode ++ rest) = .ok (m, rest) := by
  obtain ⟨subscription_id⟩ := m
  simp only [Unsub.size_ok] at h
  simp only [Unsub.encode, Unsub.decode, protocol_read_lp16_put _ h, ebind_ok]

/-- Bounds under which `Msg` round-trips. -/
def Msg.size_ok (m : Msg) : Prop :=
  m.topic.wf ∧ m.subscription_id.length ≤ 65535 ∧
    (match m.reply_to with
      | none => True
      | some reply_to => reply_to.wf) ∧
    (match m.header with
      | none => True
      | some header => header.size_ok) ∧
    m.payload.length < 268435456

theorem msg_rt (m : Msg) (h : m.size_ok) (fl : Nat)
    (hr : (fl &&& HAS_REPLY_TO_BIT != 0) = m.reply_to.isSome)
    (hh : (fl &&& HAS_HEADER_BIT != 0) = m.header.isSome) (rest : Buf) :
    Msg.decode fl (m.encode ++ rest) = .ok (m, rest) := by
  obtain ⟨topic, subscription_id, reply_to, header, payload⟩ := m
  simp only [Msg.size_ok] at h
  obtain ⟨ht, hs, hrw, hhw, hp⟩ := h
  simp only at hr hh
  have hmod : payload.length % 4294967296 = payload.length :=
    Nat.mod_eq_of_lt (by omega)
  rcases reply_to with _ | reply_to <;> rcases header with _ | header <;>
    simp only at hrw hhw <;>
    simp only [Option.isSome_none, Option.isSome_some] at hr hh
  · simp only [Msg.encode, Msg.decode, List.append_assoc, List.nil_append,
      topic_wf_rt ht, emapError_ok, ebind_ok, epure_bind, protocol_read_lp16_put _ hs,
      hr, hh, Bool.false_eq_true, if_false, hmod,
      protocol_read_varint_put _ hp]
    rw [if_neg (by simp only [List.length_append]; omega)]
    rw [List.take_left, List.drop_left]
  · obtain ⟨hhb, hhl⟩ := hhw
    simp only [Msg.encode, Msg.decode, List.append_assoc, List.nil_append,
      topic_wf_rt ht, emapError_ok, ebind_ok, epure_bind, protocol_read_lp16_put _ hs,
      hr, hh, Bool.false_eq_true, if_false, if_true,
      protocol_read_lp16_put _ hhl, headers_rt header hhb, hmod,
      protocol_read_varint_put _ hp]
    rw [if_neg (by simp only [List.length_append]; omega)]
    rw [List.take_left, List.drop_left]
  · simp only [Msg.encode, Msg.decode, List.append_assoc, List.nil_append,
      topic_wf_rt ht, topic_wf_rt hrw, emapError_ok, ebind_ok, epure_bind,
      protocol_read_lp16_put _ hs, hr, hh, Bool.false_eq_true, if_false,
      if_true, hmod, protocol_read_varint_put _ hp]
    rw [if_neg (by simp only [List.length_append]; omega)]
    rw [List.take_left, List.drop_left]
  · obtain ⟨hhb, hhl⟩ := hhw
    simp only [Msg.encode, Msg.decode, List.append_assoc, List.nil_append,
      topic_wf_rt ht, topic_wf_rt hrw, emapError_ok, ebind_ok, epure_bind,
      protocol_read_lp16_put _ hs, hr, hh, Bool.false_eq_true, if_false,
      if_true, protocol_read_lp16_put _ hhl, headers_rt header hhb, hmod,
      protocol_read_varint_put _ hp]
    rw [if_neg (by simp only [List.length_append]; omega)]
    rw [List.take_left, List.drop_left]

/-! Frame-level round trips through the directional codecs. -/

theorem and15_of_lt {x : Nat} (h : x < 16) : x &&& 15 = x := by
  have h15 : (15 : Nat) = 2 ^ 4 - 1 := rfl
  rw [h15, Nat.and_pow_two_sub_one_eq_mod]
  omega

theorem and15_lt (x : Nat) : x &&& 15 < 16 := by
  have h15 : (15 : Nat) = 2 ^ 4 - 1 := rfl
  rw [h15, Nat.and_pow_two_sub_one_eq_mod]
  omega

/-- Splitting the packed first byte recovers the command nibble and the
flag nibble. -/
theorem byte0_split (c f : Nat) (hf : f < 16) :
    (c <<< 4 ||| f) >>> 4 = c ∧ (c <<< 4 ||| f) &&& 15 = f := by
  have hor : c <<< 4 ||| f = f + c * 16 := by
    rw [Nat.lor_comm]
    have := or_shift_disjoint (a := f) c 4 (by omega)
    simpa using this
  constructor
  · rw [hor, Nat.shiftRight_eq_div_pow]
    norm_num
    omega
  · rw [hor]
    have h15 : (15 : Nat) = 2 ^ 4 - 1 := rfl
    rw [h15, Nat.and_pow_two_sub_one_eq_mod]
    omega

theorem command_try_from_toNat (c : Command) : Command.try_from c.toNat = .ok c := by
  cases c <;> rfl

theorem put_varint_shape (v : Nat) : ∃ b t, put_varint v = b :: t := by
  rcases Nat.lt_or_ge v 128 with h | h
  · exact ⟨v, [], put_varint_small h⟩
  · exact ⟨v % 128 + 128, put_varint (v / 128), put_varint_large h⟩

/-- Decoding the fixed header off a `wire_frame` recovers the command,
the masked flags, and leaves exactly the payload. -/
theorem frame_header_decode (c : Command) (fl : Nat) (payload : Buf)
    (hlen : payload.length % 4294967296 < 268435456) :
    FixedHeader.decode (wire_frame c fl payload) =
      .ok (⟨c, fl &&& 15, payload.length % 4294967296⟩, payload) := by
  obtain ⟨b, t, hv⟩ := put_varint_shape (payload.length % 4294967296)
  have hsplit := byte0_split c.toNat (fl &&& 15) (and15_lt fl)
  have hread : read_varint (put_varint (payload.length % 4294967296) ++ payload) =
      .ok (payload.length % 4294967296, payload) :=
    read_put_varint _ hlen payload
  have harg : (b :: (t ++ payload) : Buf) =
      put_varint (payload.length % 4294967296) ++ payload := by
    rw [hv, List.cons_append]
  have hread2 : read_varint (b :: (t ++ payload)) =
      .ok (payload.length % 4294967296, payload) := by
    rw [← List.cons_append, ← hv]
    exact hread
  have hcond : ¬ (((c.toNat <<< 4 ||| fl &&& 15) :: b :: (t ++ payload) : Buf).length < 2) := by
    simp only [List.length_cons]
    omega
  unfold wire_frame
  rw [hv, List.cons_append, List.cons_append]
  simp only [FixedHeader.decode]
  rw [if_neg hcond]
  simp only [List.headD_cons, List.tail_cons]
  rw [hsplit.1, command_try_from_toNat]
  simp only [ebind_ok]
  rw [hread2]
  simp only [emapError_ok, ebind_ok, epure_bind]
  rw [hsplit.2]
  rfl

theorem connect_flags_lt (m : Connect) : m.flags < 16 := by
  cases hv : m.verbose <;> cases hs : m.auth.isSome <;>
    simp [Connect.flags, hv, hs, VERBOSE_BIT, HAS_AUTH_BIT]

theorem connect_flags_bits (m : Connect) :
    ((m.flags &&& VERBOSE_BIT != 0) = m.verbose) ∧
      ((m.flags &&& HAS_AUTH_BIT != 0) = m.auth.isSome) := by
  cases hv : m.verbose <;> cases hs : m.auth.isSome <;>
    simp [Connect.flags, hv, hs, VERBOSE_BIT, HAS_AUTH_BIT]

theorem pub_flags_lt (m : Pub) : m.flags < 16 := by
  cases hr : m.reply_to.isSome <;> cases hh : m.header.isSome <;>
    simp [Pub.flags, hr, hh, HAS_REPLY_TO_BIT, HAS_HEADER_BIT]

theorem pub_flags_bits (m : Pub) :
    ((m.flags &&& HAS_REPLY_TO_BIT != 0) = m.reply_to.isSome) ∧
      ((m.flags &&& HAS_HEADER_BIT != 0) = m.header.isSome) := by
  cases hr : m.reply_to.isSome <;> cases hh : m.header.isSome <;>
    simp [Pub.flags, hr, hh, HAS_REPLY_TO_BIT, HAS_HEADER_BIT]

theorem sub_flags_lt (m : Sub) : m.flags < 16 := by
  cases hq : m.queue_group.isSome <;>
    simp [Sub.flags, hq, HAS_QUEUE_GROUP_BIT]

theorem sub_flags_bits (m : Sub) :
    (m.flags &&& HAS_QUEUE_GROUP_BIT != 0) = m.queue_group.isSome := by
  cases hq : m.queue_group.isSome <;>
    simp [Sub.flags, hq, HAS_QUEUE_GROUP_BIT]

theorem msg_flags_lt (m : Msg) : m.flags < 16 := by
  cases hr : m.reply_to.isSome <;> cases hh : m.header.isSome <;>
    simp [Msg.flags, hr, hh, HAS_REPLY_TO_BIT, HAS_HEADER_BIT]

theorem msg_flags_bits (m : Msg) :
    ((m.flags &&& HAS_REPLY_TO_BIT != 0) = m.reply_to.isSome) ∧
      ((m.flags &&& HAS_HEADER_BIT != 0) = m.header.isSome) := by
  cases hr : m.reply_to.isSome <;> cases hh : m.header.isSome <;>
    simp [Msg.flags, hr, hh, HAS_REPLY_TO_BIT, HAS_HEADER_BIT]

/-- The payload bytes a message contributes to its frame. -/
def Message.payload_encode : Message → Buf
  | .Info m => m.encode
  | .Connect m => m.encode
  | .Pub m => m.encode
  | .Sub m => m.encode
  | .Unsub m => m.encode
  | .Msg m => m.encode

/-- Per-variant field bounds. -/
def Message.fields_ok : Message → Prop
  | .Info m => m.size_ok
  | .Connect m => m.size_ok
  | .Pub m => m.size_ok
  | .Sub m => m.size_ok
  | .Unsub m => m.size_ok
  | .Msg m => m.size_ok

/-- Bounds under which a whole frame round-trips: the per-variant field
bounds, plus the encoded payload staying below the varint cap so the
frame header's `remaining_length` stays readable. -/
def Message.size_ok (m : Message) : Prop :=
  m.fields_ok ∧ m.payload_encode.length < 268435456

theorem client_server_frame_rt (m : Message) (hsz : m.size_ok) (f : Buf)
    (henc : ClientCodec.encode m = .ok f) : ServerCodec.decode f = .ok m := by
  obtain ⟨hfld, hlen⟩ := hsz
  cases m with
  | Info m => simp [ClientCodec.encode] at henc
  | Msg m => simp [ClientCodec.encode] at henc
  | Connect m =>
      simp only [Message.fields_ok] at hfld
      simp only [Message.payload_encode] at hlen
      have hf := (Except.ok.inj henc).symm
      subst hf
      have hmod : m.encode.length % 4294967296 = m.encode.length :=
        Nat.mod_eq_of_lt (by omega)
      have hbits := connect_flags_bits m
      have hrt := connect_rt m hfld m.flags hbits.1 hbits.2 []
      rw [List.append_nil] at hrt
      simp only [ServerCodec.decode,
        frame_header_decode .CONNECT m.flags m.encode (by omega), ebind_ok,
        and15_of_lt (connect_flags_lt m), hrt, emap_ok]
  | Pub m =>
      simp only [Message.fields_ok] at hfld
      simp only [Message.payload_encode] at hlen
      have hf := (Except.ok.inj henc).symm
      subst hf
      have hbits := pub_flags_bits m
      have hrt := pub_rt m hfld m.flags hbits.1 hbits.2 []
      rw [List.append_nil] at hrt
      simp only [ServerCodec.decode,
        frame_header_decode .PUB m.flags m.encode (by omega), ebind_ok,
        and15_of_lt (pub_flags_lt m), hrt, emap_ok]
  | Sub m =>
      simp only [Message.fields_ok] at hfld
      simp only [Message.payload_encode] at hlen
      have hf := (Except.ok.inj henc).symm
      subst hf
      have hrt := sub_rt m hfld m.flags (sub_flags_bits m) []
      rw [List.append_nil] at hrt
      simp only [ServerCodec.decode,
        frame_header_decode .SUB m.flags m.encode (by omega), ebind_ok,
        and15_of_lt (sub_flags_lt m), hrt, emap_ok]
  | Unsub m =>
      simp only [Message.fields_ok] at hfld
      simp only [Message.payload_encode] at hlen
      have hf := (Except.ok.inj henc).symm
      subst hf
      have hrt := unsub_rt m hfld m.flags []
      rw [List.append_nil] at hrt
      simp only [ServerCodec.decode,
        frame_header_decode .UNSUB m.flags m.encode (by omega), ebind_ok,
        and15_of_lt (by simp [Unsub.flags] : Unsub.flags m < 16), hrt, emap_ok]

theorem server_client_frame_rt (m : Message) (hsz : m.size_ok) (f : Buf)
    (henc : ServerCodec.encode m = .ok f) : ClientCodec.decode f = .ok m := by
  obtain ⟨hfld, hlen⟩ := hsz
  cases m with
  | Connect m => simp [ServerCodec.encode] at henc
  | Pub m => simp [ServerCodec.encode] at henc
  | Sub m => simp [ServerCodec.encode] at henc
  | Unsub m => simp [ServerCodec.encode] at henc
  | Info m =>
      simp only [Message.fields_ok] at hfld
      simp only [Message.payload_encode] at hlen
      have hf := (Except.ok.inj henc).symm
      subst hf
      have hrt := info_rt m hfld (m.flags &&& 15) []
      rw [List.append_nil] at hrt
      simp only [ClientCodec.decode,
        frame_header_decode .INFO m.flags m.encode (by omega), ebind_ok, hrt,
        emap_ok]
  | Msg m =>
      simp only [Message.fields_ok] at hfld
      simp only [Message.payload_encode] at hlen
      have hf := (Except.ok.inj henc).symm
      subst hf
      have hbits := msg_flags_bits m
      have hrt := msg_rt m hfld m.flags hbits.1 hbits.2 []
      rw [List.append_nil] at hrt
      simp only [ClientCodec.decode,
        frame_header_decode .MSG m.flags m.encode (by omega), ebind_ok,
        and15_of_lt (msg_flags_lt m), hrt, emap_ok]

/-! Claim theorems. -/

/-- The final varint group carries no continuation bit. -/
theorem put_varint_last (v : Nat) : ∃ g t, put_varint v = t ++ [g] ∧ g &&& 128 = 0 := by
  induction v using Nat.strong_induction_on with
  | _ v ih =>
    rcases Nat.lt_or_ge v 128 with h | h
    · exact ⟨v, [], by rw [put_varint_small h]; rfl, and128_eq_zero h⟩
    · obtain ⟨g, t, hgt, hg⟩ := ih (v / 128) (by omega)
      exact ⟨g, (v % 128 + 128) :: t, by rw [put_varint_large h, hgt]; rfl, hg⟩

/-- `put_varint` emits the minimal number of groups. -/
theorem put_varint_minimal (v : Nat) :
    (v < 128 → (put_varint v).length = 1) ∧
      (128 ≤ v → v < 16384 → (put_varint v).length = 2) ∧
      (16384 ≤ v → v < 2097152 → (put_varint v).length = 3) ∧
      (2097152 ≤ v → v < 268435456 → (put_varint v).length = 4) := by
  refine ⟨fun h => ?_, fun h1 h2 => ?_, fun h1 h2 => ?_, fun h1 h2 => ?_⟩
  · rw [put_varint_small h]; rfl
  · rw [put_varint_large h1, put_varint_small (by omega)]; rfl
  · rw [put_varint_large (by omega : 128 ≤ v),
      put_varint_large (show 128 ≤ v / 128 by omega), put_varint_small (by omega)]
    rfl
  · rw [put_varint_large (by omega : 128 ≤ v),
      put_varint_large (show 128 ≤ v / 128 by omega),
      put_varint_large (show 128 ≤ v / 128 / 128 by omega),
      put_varint_small (by omega)]
    rfl

/-- C4: `put_varint` emits the minimal number of 7-bit groups with no
continuation bit on the final group (0 and 127 take 1 byte, 128 and 16383
take 2, 268435455 takes 4); `read_varint` inverts `put_varint` for every
value up to 268435455; four continuation bits overflow; a buffer
exhausted before a terminal group fails `BufferTooShort`. -/
theorem claim_C4 :
    ((put_varint 0).length = 1 ∧ (put_varint 127).length = 1 ∧
      (put_varint 128).length = 2 ∧ (put_varint 16383).length = 2 ∧
      (put_varint 268435455).length = 4) ∧
    (∀ v : Nat, (v < 128 → (put_varint v).length = 1) ∧
      (128 ≤ v → v < 16384 → (put_varint v).length = 2) ∧
      (16384 ≤ v → v < 2097152 → (put_varint v).length = 3) ∧
      (2097152 ≤ v → v < 268435456 → (put_varint v).length = 4)) ∧
    (∀ v : Nat, ∃ g t, put_varint v = t ++ [g] ∧ g &&& 128 = 0) ∧
    (∀ v : Nat, v ≤ 268435455 → ∀ rest : Buf,
      read_varint (put_varint v ++ rest) = .ok (v, rest)) ∧
    (∀ b0 b1 b2 b3 : Nat, ∀ rest : Buf,
      b0 &&& 128 ≠ 0 → b1 &&& 128 ≠ 0 → b2 &&& 128 ≠ 0 → b3 &&& 128 ≠ 0 →
      read_varint (b0 :: b1 :: b2 :: b3 :: rest) = .error .VariableLengthOverflow) ∧
    (∀ src : Buf, src.length < 4 → (∀ b ∈ src, b &&& 128 ≠ 0) →
      read_varint src = .error (.BufferTooShort 1 0)) := by
  refine ⟨by decide, put_varint_minimal, put_varint_last, ?_, ?_, read_varint_short⟩
  · intro v hv rest
    exact read_put_varint v (by norm_num; omega) rest
  · intro b0 b1 b2 b3 rest h0 h1 h2 h3
    exact read_varint_overflow b0 b1 b2 b3 rest h0 h1 h2 h3

/-- Witness for C4 at concrete inputs. -/
theorem claim_C4_witness :
    read_varint (put_varint 300 ++ [7]) = .ok (300, [7]) ∧
    read_varint [200, 201, 202, 203, 9] = .error .VariableLengthOverflow ∧
    read_varint [200, 201] = .error (.BufferTooShort 1 0) :=
  ⟨claim_C4.2.2.2.1 300 (by norm_num) [7],
    claim_C4.2.2.2.2.1 200 201 202 203 [9] (by decide) (by decide) (by decide)
      (by decide),
    claim_C4.2.2.2.2.2 [200, 201] (by decide) (by decide)⟩

/-- A varint needing a fifth group is unreadable. -/
theorem varint_five_unreadable (v : Nat) (h1 : 268435455 < v) (h2 : v < 4294967296)
    (rest : Buf) :
    read_varint (put_varint v ++ rest) = .error .VariableLengthOverflow := by
  rw [put_varint_five v (by omega) h2]
  simp only [List.cons_append]
  exact read_varint_overflow _ _ _ _ _
    (by rw [add128_and128 (Nat.mod_lt _ (by omega))]; omega)
    (by rw [add128_and128 (Nat.mod_lt _ (by omega))]; omega)
    (by rw [add128_and128 (Nat.mod_lt _ (by omega))]; omega)
    (by rw [add128_and128 (Nat.mod_lt _ (by omega))]; omega)

/-- C10 (amended): for `u32` values above the 4-group maximum (and below
`2^32`, the domain of the `u32` argument), `put_varint` emits five bytes
and `read_varint` rejects its own output with `VariableLengthOverflow`;
a `wire_frame` whose payload is longer than 268435455 bytes — and shorter
than `2^32`, past which the `payload.len() as u32` cast wraps — has an
undecodable fixed header. -/
theorem claim_C10 :
    (∀ v : Nat, 268435455 < v → v < 4294967296 →
      (put_varint v).length = 5 ∧
      (∀ rest : Buf, read_varint (put_varint v ++ rest) =
        .error .VariableLengthOverflow)) ∧
    (∀ (c : Command) (fl : Nat) (payload : Buf),
      268435455 < payload.length → payload.length < 4294967296 →
      FixedHeader.decode (wire_frame c fl payload) =
        .error .VariableLengthOverflow) := by
  constructor
  · intro v h1 h2
    refine ⟨?_, varint_five_unreadable v h1 h2⟩
    rw [put_varint_five v (by omega) h2]
    rfl
  · intro c fl payload h1 h2
    have hmod : payload.length % 4294967296 = payload.length :=
      Nat.mod_eq_of_lt (by omega)
    unfold wire_frame
    rw [List.cons_append]
    obtain ⟨b, t, hv⟩ := put_varint_shape (payload.length % 4294967296)
    have hvar : read_varint (put_varint (payload.length % 4294967296) ++ payload) =
        .error .VariableLengthOverflow := by
      rw [hmod]
      exact varint_five_unreadable payload.length h1 h2 payload
    rw [hv, List.cons_append]
    simp only [FixedHeader.decode]
    rw [if_neg (by simp only [List.length_cons]; omega)]
    simp only [List.headD_cons, List.tail_cons]
    cases hc : Command.try_from
        ((c.toNat <<< 4 ||| (fl &&& 15)) >>> 4) with
    | error e =>
        rw [byte0_split c.toNat (fl &&& 15) (and15_lt fl) |>.1,
          command_try_from_toNat] at hc
        exact absurd hc (by simp)
    | ok c' =>
        simp only [ebind_ok]
        rw [← List.cons_append, ← hv, hvar]
        rfl

/-- The one-layer topic `"a"` as a decoded value. -/
def topic_a : Topic := ⟨⟨[97], 1, []⟩⟩

/-- A PUB whose encoded payload is longer than `2^32` bytes. -/
def huge_pub : Pub := ⟨topic_a, none, none, List.replicate 4294967292 0⟩

theorem huge_pub_encode_length : (Pub.encode huge_pub).length = 4294967300 := by
  have hp : (List.replicate 4294967292 (0 : Nat)).length % 4294967296 =
      4294967292 := by
    rw [List.length_replicate]
  have hpv : (put_varint ((List.replicate 4294967292 (0 : Nat)).length %
      4294967296)).length = 5 := by
    rw [hp, put_varint_five 4294967292 (by norm_num) (by norm_num)]
    rfl
  simp only [Pub.encode, huge_pub, topic_a, Topic.encode_to, TopicWire.encode_to,
    List.length_append, hpv, List.length_replicate, length_put_lp16]
  rfl

/-- Counterexample to C10 as stated: a message whose encoded payload is
longer than 268435455 bytes (namely `2^32 + 4` bytes, so the
`payload.len() as u32` cast wraps to 4) yields a frame whose fixed
header decodes successfully. -/
theorem claim_C10_cex :
    268435455 < (Pub.encode huge_pub).length ∧
    ClientCodec.encode (.Pub huge_pub) =
      .ok (wire_frame .PUB huge_pub.flags huge_pub.encode) ∧
    (FixedHeader.decode (wire_frame .PUB huge_pub.flags huge_pub.encode)).isOk
      = true := by
  refine ⟨by rw [huge_pub_encode_length]; norm_num, rfl, ?_⟩
  have hmod : (Pub.encode huge_pub).length % 4294967296 = 4 := by
    rw [huge_pub_encode_length]
  rw [frame_header_decode .PUB huge_pub.flags huge_pub.encode
    (by rw [hmod]; norm_num)]
  rfl

/-- Witness for C10 at concrete inputs. -/
theorem claim_C10_witness :
    (put_varint 268435456).length = 5 ∧
    read_varint (put_varint 268435456 ++ []) = .error .VariableLengthOverflow ∧
    FixedHeader.decode (wire_frame .PUB 0 (List.replicate 268435456 0)) =
      .error .VariableLengthOverflow :=
  ⟨(claim_C10.1 268435456 (by norm_num) (by norm_num)).1,
    (claim_C10.1 268435456 (by norm_num) (by norm_num)).2 [],
    claim_C10.2 .PUB 0 _ (by rw [List.length_replicate]; norm_num)
      (by rw [List.length_replicate]; norm_num)⟩

/-- An unknown command nibble makes `try_from` fail. -/
theorem try_from_unknown (v : Nat) (h : v = 0 ∨ 10 < v) :
    Command.try_from v = .error (.UnknownCommand v) := by
  unfold Command.try_from
  repeat rw [if_neg (by omega)]

/-- C6: `FixedHeader::decode` fails `BufferTooShort{expected: 2, actual}`
on fewer than two bytes; byte 0's upper nibble selects the command,
failing `UnknownCommand` on any nibble outside `0x1`–`0xA`; the lower
nibble becomes the flags and the following bytes are read as a varint;
`encode` is the exact inverse for every command, flags below 16 and
remaining length up to 268435455. -/
theorem claim_C6 :
    (∀ src : Buf, src.length < 2 →
      FixedHeader.decode src = .error (.BufferTooShort 2 src.length)) ∧
    (∀ (b : Nat) (rest : Buf), rest ≠ [] →
      (b >>> 4 = 0 ∨ 10 < b >>> 4) →
      FixedHeader.decode (b :: rest) = .error (.UnknownCommand (b >>> 4))) ∧
    (∀ (c : Command) (flags remaining_length : Nat), flags < 16 →
      remaining_length ≤ 268435455 →
      FixedHeader.decode (FixedHeader.encode ⟨c, flags, remaining_length⟩) =
        .ok (⟨c, flags, remaining_length⟩, [])) := by
  refine ⟨?_, ?_, ?_⟩
  · intro src hlen
    unfold FixedHeader.decode
    rw [if_pos hlen]
  · intro b rest hne hnib
    unfold FixedHeader.decode
    rw [if_neg (by cases rest with
      | nil => exact absurd rfl hne
      | cons x xs => simp only [List.length_cons]; omega)]
    simp only [List.headD_cons, List.tail_cons]
    rw [try_from_unknown _ hnib]
    rfl
  · intro c flags remaining_length hf hrl
    have hread : read_varint (put_varint remaining_length ++ []) =
        .ok (remaining_length, []) :=
      read_put_varint remaining_length (by norm_num; omega) []
    rw [List.append_nil] at hread
    obtain ⟨b, t, hv⟩ := put_varint_shape remaining_length
    have hsplit := byte0_split c.toNat (flags &&& 15) (and15_lt flags)
    unfold FixedHeader.encode FixedHeader.decode
    simp only
    rw [if_neg (by rw [hv]; simp only [List.length_cons]; omega)]
    simp only [List.headD_cons, List.tail_cons]
    rw [hsplit.1, command_try_from_toNat]
    simp only [ebind_ok]
    rw [hread]
    simp only [emapError_ok, ebind_ok]
    rw [hsplit.2, and15_of_lt hf]
    rfl

/-- Witness for C6 at concrete inputs. -/
theorem claim_C6_witness :
    FixedHeader.decode [5] = .error (.BufferTooShort 2 1) ∧
    FixedHeader.decode [0xB5, 0] = .error (.UnknownCommand 0xB) ∧
    FixedHeader.decode (FixedHeader.encode ⟨.MSG, 3, 16384⟩) =
      .ok (⟨.MSG, 3, 16384⟩, []) :=
  ⟨claim_C6.1 [5] (by decide),
    claim_C6.2.1 0xB5 [0] (by decide) (by decide),
    claim_C6.2.2 .MSG 3 16384 (by decide) (by decide)⟩

/-- C5: the server codec encodes exactly INFO and MSG, the client codec
exactly CONNECT/PUB/SUB/UNSUB, failing `WrongDirection` otherwise (as a
returned error; the model is a total function, so no panic is possible);
on a frame whose fixed header decodes, each codec rejects any known
command outside its set with `UnsupportedCommand(command)`. -/
theorem claim_C5 :
    (∀ m : Message, ServerCodec.encode m = .error .WrongDirection ↔
      ¬ ((∃ i, m = .Info i) ∨ (∃ g, m = .Msg g))) ∧
    (∀ m : Message, ClientCodec.encode m = .error .WrongDirection ↔
      ¬ ((∃ c, m = .Connect c) ∨ (∃ p, m = .Pub p) ∨ (∃ s, m = .Sub s) ∨
        (∃ u, m = .Unsub u))) ∧
    (∀ (src : Buf) (h : FixedHeader) (rest : Buf),
      FixedHeader.decode src = .ok (h, rest) →
      h.command ≠ .CONNECT → h.command ≠ .PUB → h.command ≠ .SUB →
      h.command ≠ .UNSUB →
      ServerCodec.decode src = .error (.UnsupportedCommand h.command)) ∧
    (∀ (src : Buf) (h : FixedHeader) (rest : Buf),
      FixedHeader.decode src = .ok (h, rest) →
      h.command ≠ .INFO → h.command ≠ .MSG →
      ClientCodec.decode src = .error (.UnsupportedCommand h.command)) := by
  refine ⟨?_, ?_, ?_, ?_⟩
  · intro m
    cases m <;> simp [ServerCodec.encode]
  · intro m
    cases m <;> simp [ClientCodec.encode]
  · intro src h rest hdec h1 h2 h3 h4
    simp only [ServerCodec.decode, hdec, ebind_ok]
  · intro src h rest hdec h1 h2
    simp only [ClientCodec.decode, hdec, ebind_ok]

/-- Witness for C5's decode conjuncts at concrete frames. -/
theorem claim_C5_witness :
    ServerCodec.decode [0x70, 0] = .error (.UnsupportedCommand .PING) ∧
    ClientCodec.decode [0x30, 0] = .error (.UnsupportedCommand .PUB) :=
  ⟨claim_C5.2.2.1 [0x70, 0] ⟨.PING, 0, 0⟩ [] (by decide) (by decide) (by decide)
      (by decide) (by decide),
    claim_C5.2.2.2 [0x30, 0] ⟨.PUB, 0, 0⟩ [] (by decide) (by decide) (by decide)⟩

/-- A successful varint read strictly shrinks the buffer. -/
theorem read_varint_go_shrinks : ∀ (fuel : Nat) (src : Buf) (value shift v : Nat)
    (rest : Buf), read_varint_go fuel src value shift = .ok (v, rest) →
    rest.length < src.length := by
  intro fuel
  induction fuel with
  | zero => intro src value shift v rest h; exact absurd h (by simp [read_varint_go])
  | succ f ih =>
      intro src value shift v rest h
      cases src with
      | nil => exact absurd h (by simp [read_varint_go])
      | cons b tail =>
          simp only [read_varint_go] at h
          split at h
          · have := Except.ok.inj h
            have hr : rest = tail := (congrArg Prod.snd this).symm
            subst hr
            simp
          · have := ih tail _ _ v rest h
            simp only [List.length_cons]
            omega

/-- Decoding a fixed header whose varint part is given by hypothesis. -/
theorem fixed_header_decode_of_varint (b : Nat) {x p : Buf} {v : Nat}
    (hx : read_varint (x ++ p) = .ok (v, p)) :
    FixedHeader.decode (b :: (x ++ p)) =
      (Command.try_from (b >>> 4)).map (fun c => (⟨c, b &&& 15, v⟩, p)) := by
  have hlen : p.length < (x ++ p).length :=
    read_varint_go_shrinks 4 (x ++ p) 0 0 v p hx
  unfold FixedHeader.decode
  rw [if_neg (by simp only [List.length_cons]; omega)]
  simp only [List.headD_cons, List.tail_cons]
  rw [hx]
  cases hc : Command.try_from (b >>> 4)
  · simp only [ebind_error, emap_error]
  · simp only [emapError_ok, ebind_ok, epure_bind, emap_ok]
    rfl

/-- C7: the decoders never check `remaining_length` against the payload:
two frames that differ only in their (valid) `remaining_length` varint
decode identically, for both roles. -/
theorem claim_C7 : ∀ (b : Nat) (x y p : Buf) (v w : Nat),
    read_varint (x ++ p) = .ok (v, p) → read_varint (y ++ p) = .ok (w, p) →
    ServerCodec.decode (b :: (x ++ p)) = ServerCodec.decode (b :: (y ++ p)) ∧
    ClientCodec.decode (b :: (x ++ p)) = ClientCodec.decode (b :: (y ++ p)) := by
  intro b x y p v w hx hy
  constructor
  · simp only [ServerCodec.decode, fixed_header_decode_of_varint b hx,
      fixed_header_decode_of_varint b hy]
    cases hc : Command.try_from (b >>> 4) <;>
      simp only [emap_error, ebind_error, emap_ok, ebind_ok]
  · simp only [ClientCodec.decode, fixed_header_decode_of_varint b hx,
      fixed_header_decode_of_varint b hy]
    cases hc : Command.try_from (b >>> 4) <;>
      simp only [emap_error, ebind_error, emap_ok, ebind_ok]

/-- Witness for C7: a CONNECT frame lying about its remaining length
(99 instead of 1) still decodes, and equally to the truthful frame. -/
theorem claim_C7_witness :
    ServerCodec.decode (0x20 :: ([1] ++ [1])) =
      ServerCodec.decode (0x20 :: ([99] ++ [1])) ∧
    ServerCodec.decode (0x20 :: ([99] ++ [1])) =
      .ok (.Connect ⟨1, false, none⟩) :=
  ⟨(claim_C7 0x20 [1] [99] [1] 1 99 (by decide) (by decide)).1, by decide⟩

/-- C8 (amended, spec-modelled): encoding writes each entry in insertion
order as a 1-byte-length-prefixed key then a 2-byte-length-prefixed
value with no count prefix; when every key fits one byte and every value
two, decoding the block returns the same entries in order; `insert`
appends, preserving duplicates; the trace-id/content-type pair and a
duplicated key round-trip concretely.  Unbounded, the round trip fails:
see the counterexample. -/
theorem claim_C8 :
    (∀ (entries : List (Buf × Buf)),
      Headers.encode_to ⟨entries⟩ =
        (entries.map fun e => (e.1.length % 256) :: e.1 ++
          ((e.2.length % 65536) / 256 :: (e.2.length % 65536) % 256 :: e.2)).flatten) ∧
    (∀ (h : Headers),
      (∀ e ∈ h.entries, e.1.length ≤ 255 ∧ e.2.length ≤ 65535) →
      Headers.decode_from h.encode_to = .ok h) ∧
    (∀ (h : Headers) (k v : Buf),
      (h.insert k v).entries = h.entries ++ [(k, v)]) ∧
    Headers.decode_from ((Headers.new.insert
        [116, 114, 97, 99, 101, 45, 105, 100] [120, 121, 122]).insert
        [99, 111, 110, 116, 101, 110, 116, 45, 116, 121, 112, 101]
        [97, 112, 112, 108, 105, 99, 97, 116, 105, 111, 110, 47, 106, 115,
          111, 110]).encode_to =
      .ok ⟨[([116, 114, 97, 99, 101, 45, 105, 100], [120, 121, 122]),
        ([99, 111, 110, 116, 101, 110, 116, 45, 116, 121, 112, 101],
          [97, 112, 112, 108, 105, 99, 97, 116, 105, 111, 110, 47, 106, 115,
            111, 110])]⟩ ∧
    Headers.decode_from (Headers.encode_to
        ⟨[([107], [49]), ([107], [50])]⟩) =
      .ok ⟨[([107], [49]), ([107], [50])]⟩ := by
  refine ⟨fun entries => rfl, fun h hb => headers_rt h hb,
    fun h k v => rfl, by decide, by decide⟩

/-- Counterexample to C8 as stated: a 256-byte key truncates its 1-byte
length prefix (`256 as u8 = 0`), so the block does not decode back. -/
theorem claim_C8_cex :
    Headers.decode_from (Headers.encode_to ⟨[(List.replicate 256 107, [])]⟩) ≠
      .ok ⟨[(List.replicate 256 107, [])]⟩ := by
  decide

/-- Witness for C8 at a concrete single-entry block. -/
theorem claim_C8_witness :
    Headers.decode_from (Headers.encode_to ⟨[([107], [118])]⟩) =
      .ok ⟨[([107], [118])]⟩ :=
  claim_C8.2.1 ⟨[([107], [118])]⟩ (by
    intro e he
    rcases List.mem_singleton.mp he with rfl
    exact ⟨by decide, by decide⟩)

/-- C1 (amended): every message legal for its direction round-trips
through the opposite role's codec when its length-prefixed fields fit
their prefixes and the encoded payload stays below the varint cap
(`Message.size_ok`); the CONNECT/Jwt scenario round-trips concretely.
Unbounded, the claim fails: see the counterexample. -/
theorem claim_C1 :
    (∀ (m : Message) (f : Buf), m.size_ok → ClientCodec.encode m = .ok f →
      ServerCodec.decode f = .ok m) ∧
    (∀ (m : Message) (f : Buf), m.size_ok → ServerCodec.encode m = .ok f →
      ClientCodec.decode f = .ok m) ∧
    (∃ f, ClientCodec.encode (.Connect ⟨1, false, some (.Jwt
        [104, 101, 97, 100, 101, 114, 46, 112, 97, 121, 108, 111, 97, 100,
          46, 115, 105, 103])⟩) = .ok f ∧
      ServerCodec.decode f = .ok (.Connect ⟨1, false, some (.Jwt
        [104, 101, 97, 100, 101, 114, 46, 112, 97, 121, 108, 111, 97, 100,
          46, 115, 105, 103])⟩)) := by
  refine ⟨fun m f hsz henc => client_server_frame_rt m hsz f henc,
    fun m f hsz henc => server_client_frame_rt m hsz f henc, ⟨_, rfl, ?_⟩⟩
  decide

/-- An INFO whose `server_name` is 256 bytes long: the 1-byte length
prefix truncates (`256 as u8 = 0`), so the decoded message differs from
the original and the unbounded round-trip claim fails. -/
def big_info : Info := ⟨1, 0, [], List.replicate 256 97, false, false⟩

/-- Counterexample to C1 as stated: `big_info` encodes on the server
side, but the client-side decode of that frame does not return it. -/
theorem claim_C1_cex :
    ∃ f, ServerCodec.encode (.Info big_info) = .ok f ∧
      ClientCodec.decode f ≠ .ok (.Info big_info) := by
  refine ⟨_, rfl, ?_⟩
  decide

/-- Witness for C1 at a concrete UNSUB frame. -/
theorem claim_C1_witness :
    ServerCodec.decode [0x50, 4, 0, 2, 115, 49] = .ok (.Unsub ⟨[115, 49]⟩) :=
  claim_C1.1 (.Unsub ⟨[115, 49]⟩) [0x50, 4, 0, 2, 115, 49]
    ⟨(by decide : [115, 49].length ≤ 65535),
      (by decide : (Unsub.encode ⟨[115, 49]⟩).length < 268435456)⟩
    (by decide)

/-- Reduce `Topic.decode` once the length prefix has been read. -/
theorem topic_decode_reduce (src raw rest : Buf)
    (hread : read_length_prefixed_u16 src = .ok (raw, rest)) :
    Topic.decode src = (TopicWire.from_raw raw) >>= (fun w =>
      if w.raw.any fun b => b == SINGLE_LAYER_WILDCARD || b == MULTI_LAYER_WILDCARD
      then .error .WildcardInPublishTopic else .ok (⟨w⟩, rest)) := by
  simp only [Topic.decode, TopicWire.decode, hread, emapError_ok, ebind_ok]
  cases TopicWire.from_raw raw <;> simp

/-- `from_raw` on an empty or over-long string. -/
theorem from_raw_exceeds (raw : Buf) (h : raw.length = 0 ∨ raw.length > 256) :
    TopicWire.from_raw raw = .error (.ExceedsMaxLength raw.length) := by
  unfold TopicWire.from_raw TopicWire.validate_length
  rw [if_pos (by simpa [MAXIMUM_TOPIC_LENGTH] using h)]
  rfl

/-- `from_raw` on a leading separator. -/
theorem from_raw_leading (raw : Buf) (h1 : raw.length ≠ 0) (h2 : raw.length ≤ 256)
    (hh : raw.headD 0 = LAYER_SEPARATOR) :
    TopicWire.from_raw raw = .error .LeadingSlash := by
  have hv : ¬ (raw.length = 0 ∨ raw.length > MAXIMUM_TOPIC_LENGTH) := by
    simp only [MAXIMUM_TOPIC_LENGTH]; omega
  unfold TopicWire.from_raw TopicWire.validate_length TopicWire.validate_no_edge_slash
  rw [if_neg hv, if_pos hh]
  rfl

/-- `from_raw` on a trailing separator. -/
theorem from_raw_trailing (raw : Buf) (h1 : raw.length ≠ 0) (h2 : raw.length ≤ 256)
    (hh : raw.headD 0 ≠ LAYER_SEPARATOR) (hl : raw.getLastD 0 = LAYER_SEPARATOR) :
    TopicWire.from_raw raw = .error .TrailingSlash := by
  have hv : ¬ (raw.length = 0 ∨ raw.length > MAXIMUM_TOPIC_LENGTH) := by
    simp only [MAXIMUM_TOPIC_LENGTH]; omega
  unfold TopicWire.from_raw TopicWire.validate_length TopicWire.validate_no_edge_slash
  rw [if_neg hv, if_neg hh, if_pos hl]
  rfl

/-- `from_raw` past the edge checks, reduced to the separator scan. -/
theorem from_raw_scan (raw : Buf) (h1 : raw.length ≠ 0) (h2 : raw.length ≤ 256)
    (hh : raw.headD 0 ≠ LAYER_SEPARATOR) (hl : raw.getLastD 0 ≠ LAYER_SEPARATOR) :
    TopicWire.from_raw raw = (TopicWire.scan_slashes raw) >>=
      (fun p => pure ⟨raw, p.2, p.1⟩) := by
  have hv : ¬ (raw.length = 0 ∨ raw.length > MAXIMUM_TOPIC_LENGTH) := by
    simp only [MAXIMUM_TOPIC_LENGTH]; omega
  unfold TopicWire.from_raw TopicWire.validate_length TopicWire.validate_no_edge_slash
  rw [if_neg hv, if_neg hh, if_neg hl]
  simp only [ebind_ok]

/-- C2: `Topic::decode` first reads a 2-byte-length-prefixed string (a
wire failure propagates into the `Wire` error), then fails
`ExceedsMaxLength` on an empty or over-256-byte string, `LeadingSlash` /
`TrailingSlash` on an edge separator, `EmptyLayer` on an adjacent
separator pair (reached before an eighth separator), and
`ExceedsMaxLayerCount 9` as soon as an eighth separator is seen;
structurally valid bytes containing `+` or `#` fail
`WildcardInPublishTopic`, and every remaining input succeeds with at
most 8 layers. -/
theorem claim_C2 :
    (∀ (src : Buf) (e : WireError), read_length_prefixed_u16 src = .error e →
      Topic.decode src = .error (.Wire e)) ∧
    (∀ (src raw rest : Buf), read_length_prefixed_u16 src = .ok (raw, rest) →
      ((raw.length = 0 ∨ raw.length > 256) →
        Topic.decode src = .error (.ExceedsMaxLength raw.length)) ∧
      (raw.length ≠ 0 → raw.length ≤ 256 →
        raw.headD 0 = LAYER_SEPARATOR →
        Topic.decode src = .error .LeadingSlash) ∧
      (raw.length ≠ 0 → raw.length ≤ 256 →
        raw.headD 0 ≠ LAYER_SEPARATOR → raw.getLastD 0 = LAYER_SEPARATOR →
        Topic.decode src = .error .TrailingSlash) ∧
      (raw.length ≠ 0 → raw.length ≤ 256 →
        raw.headD 0 ≠ LAYER_SEPARATOR → raw.getLastD 0 ≠ LAYER_SEPARATOR →
        hasAdjSep raw false = true → raw.count LAYER_SEPARATOR ≤ 7 →
        Topic.decode src = .error .EmptyLayer) ∧
      (raw.length ≠ 0 → raw.length ≤ 256 →
        raw.headD 0 ≠ LAYER_SEPARATOR → raw.getLastD 0 ≠ LAYER_SEPARATOR →
        hasAdjSep raw false = false → 8 ≤ raw.count LAYER_SEPARATOR →
        Topic.decode src = .error (.ExceedsMaxLayerCount 9)) ∧
      (raw.length ≠ 0 → raw.length ≤ 256 →
        raw.headD 0 ≠ LAYER_SEPARATOR → raw.getLastD 0 ≠ LAYER_SEPARATOR →
        hasAdjSep raw false = false → raw.count LAYER_SEPARATOR ≤ 7 →
        (raw.any fun b => b == SINGLE_LAYER_WILDCARD || b == MULTI_LAYER_WILDCARD) = true →
        Topic.decode src = .error .WildcardInPublishTopic) ∧
      (raw.length ≠ 0 → raw.length ≤ 256 →
        raw.headD 0 ≠ LAYER_SEPARATOR → raw.getLastD 0 ≠ LAYER_SEPARATOR →
        hasAdjSep raw false = false → raw.count LAYER_SEPARATOR ≤ 7 →
        (raw.any fun b => b == SINGLE_LAYER_WILDCARD || b == MULTI_LAYER_WILDCARD) = false →
        Topic.decode src =
          .ok (⟨⟨raw, raw.count LAYER_SEPARATOR + 1, sepIdxsFrom raw 0⟩⟩, rest) ∧
        raw.count LAYER_SEPARATOR + 1 ≤ 8)) := by
  constructor
  · intro src e herr
    simp [Topic.decode, TopicWire.decode, herr]
  intro src raw rest hread
  refine ⟨?_, ?_, ?_, ?_, ?_, ?_, ?_⟩
  · intro h
    rw [topic_decode_reduce src raw rest hread, from_raw_exceeds raw h]
    rfl
  · intro h1 h2 hh
    rw [topic_decode_reduce src raw rest hread, from_raw_leading raw h1 h2 hh]
    rfl
  · intro h1 h2 hh hl
    rw [topic_decode_reduce src raw rest hread, from_raw_trailing raw h1 h2 hh hl]
    rfl
  · intro h1 h2 hh hl hadj hcnt
    rw [topic_decode_reduce src raw rest hread, from_raw_scan raw h1 h2 hh hl,
      TopicWire.scan_slashes,
      scan_go_empty_layer raw 0 [] false hadj (by simpa using hcnt)]
    rfl
  · intro h1 h2 hh hl hadj hcnt
    rw [topic_decode_reduce src raw rest hread, from_raw_scan raw h1 h2 hh hl,
      TopicWire.scan_slashes,
      scan_go_overflow raw 0 [] false hadj (by simp) (by simpa using hcnt)]
    rfl
  · intro h1 h2 hh hl hadj hcnt hany
    rw [topic_decode_reduce src raw rest hread, from_raw_scan raw h1 h2 hh hl,
      TopicWire.scan_slashes,
      scan_go_ok raw 0 [] false hadj (by simpa using hcnt) (by simpa using h2)]
    simp only [ebind_ok, epure_bind, hany]
    rfl
  · intro h1 h2 hh hl hadj hcnt hany
    refine ⟨?_, by omega⟩
    rw [topic_decode_reduce src raw rest hread, from_raw_scan raw h1 h2 hh hl,
      TopicWire.scan_slashes,
      scan_go_ok raw 0 [] false hadj (by simpa using hcnt) (by simpa using h2)]
    simp only [ebind_ok, epure_bind, hany]
    simp

/-- The classification loop only ever fails `MultiLayerWildcardNotTerminal`. -/
theorem classify_go_error_only (wire : TopicWire) : ∀ (l : List Nat) (hs hm : Bool)
    (e : TopicError), TopicFilter.classify_go wire l hs hm = .error e →
    e = .MultiLayerWildcardNotTerminal := by
  intro l
  induction l with
  | nil => intro hs hm e h; simp [TopicFilter.classify_go] at h
  | cons j l ih =>
      intro hs hm e h
      by_cases hc : ((wire.layer j).contains MULTI_LAYER_WILDCARD &&
          !(decide (j + 1 = wire.layer_count))) = true
      · simp only [TopicFilter.classify_go, hc, if_true] at h
        exact (Except.error.inj h).symm
      · have hc' : ((wire.layer j).contains MULTI_LAYER_WILDCARD &&
            !(decide (j + 1 = wire.layer_count))) = false := by
          simpa using hc
        simp only [TopicFilter.classify_go, hc', Bool.false_eq_true, if_false] at h
        exact ih _ _ _ h

/-- A successful scan reports at least one layer. -/
theorem scan_go_count_pos (l : Buf) : ∀ (i : Nat) (acc : List Nat) (prev : Bool)
    (sp : List Nat) (lc : Nat),
    TopicWire.scan_go l i acc prev = .ok (sp, lc) → 1 ≤ lc := by
  induction l with
  | nil =>
      intro i acc prev sp lc h
      simp only [TopicWire.scan_go] at h
      by_cases hgt : acc.length + 1 > MAXIMUM_TOPIC_LAYER
      · rw [if_pos hgt] at h; exact absurd h (by simp)
      · rw [if_neg hgt] at h
        have hlc := congrArg Prod.snd (Except.ok.inj h)
        simp at hlc
        omega
  | cons b rest ih =>
      intro i acc prev sp lc h
      simp only [TopicWire.scan_go] at h
      by_cases hb : b = LAYER_SEPARATOR
      · rw [if_pos hb] at h
        cases prev with
        | false =>
            rw [if_neg Bool.false_ne_true] at h
            by_cases hfull : acc.length ≥ MAX_SLASH_COUNT
            · rw [if_pos hfull] at h; exact absurd h (by simp)
            · rw [if_neg hfull] at h; exact ih _ _ _ _ _ h
        | true =>
            rw [if_pos rfl] at h
            exact absurd h (by simp)
      · rw [if_neg hb] at h
        exact ih _ _ _ _ _ h

/-- A wire built by `from_raw` has a positive layer count. -/
theorem from_raw_count_pos {raw : Buf} {w : TopicWire}
    (h : TopicWire.from_raw raw = .ok w) : 1 ≤ w.layer_count := by
  unfold TopicWire.from_raw at h
  cases h1 : TopicWire.validate_length raw <;> rw [h1] at h
  · exact absurd h (by simp)
  cases h2 : TopicWire.validate_no_edge_slash raw <;> rw [h2] at h
  · exact absurd h (by simp)
  cases h3 : TopicWire.scan_slashes raw with
  | error e => rw [h3] at h; exact absurd h (by simp)
  | ok p =>
      obtain ⟨sp, lc⟩ := p
      rw [h3] at h
      simp only [ebind_ok] at h
      have hw := Except.ok.inj h
      have hlc : w.layer_count = lc := by rw [← hw]
      rw [hlc]
      unfold TopicWire.scan_slashes at h3
      exact scan_go_count_pos raw 0 [] false sp lc h3

/-- With every non-terminal layer hash-free, the hash scan over all the
layers reduces to the terminal layer. -/
theorem range_any_terminal (w : TopicWire) (k : Nat) (hk : w.layer_count = k + 1)
    (hnon : ∀ i, i + 1 < w.layer_count →
      (w.layer i).contains MULTI_LAYER_WILDCARD = false) :
    (List.range w.layer_count).any
        (fun i => (w.layer i).contains MULTI_LAYER_WILDCARD) =
      (w.layer (w.layer_count - 1)).contains MULTI_LAYER_WILDCARD := by
  rw [hk, List.range_succ, List.any_append]
  have hz : (List.range k).any
      (fun i => (w.layer i).contains MULTI_LAYER_WILDCARD) = false := by
    rw [List.any_eq_false]
    intro i hi
    have hik : i < k := List.mem_range.mp hi
    simpa using hnon i (by omega)
  rw [hz]
  simp

/-- Inversion of a successful scan: the returned positions are exactly
the separator offsets and the count is separators plus one, at most 8. -/
theorem scan_go_ok_inv (l : Buf) : ∀ (i : Nat) (acc : List Nat) (prev : Bool)
    (sp : List Nat) (lc : Nat),
    TopicWire.scan_go l i acc prev = .ok (sp, lc) →
    i + l.length ≤ 256 →
    sp = acc ++ sepIdxsFrom l i ∧
    lc = acc.length + l.count LAYER_SEPARATOR + 1 ∧ lc ≤ 8 := by
  induction l with
  | nil =>
      intro i acc prev sp lc h _
      simp only [TopicWire.scan_go] at h
      by_cases hgt : acc.length + 1 > MAXIMUM_TOPIC_LAYER
      · rw [if_pos hgt] at h; exact absurd h (by simp)
      · rw [if_neg hgt] at h
        have hp := Except.ok.inj h
        have h1 := congrArg Prod.fst hp
        have h2 := congrArg Prod.snd hp
        simp at h1 h2
        simp only [MAXIMUM_TOPIC_LAYER] at hgt
        exact ⟨by simp [sepIdxsFrom, h1.symm], by simp [h2.symm], by omega⟩
  | cons b rest ih =>
      intro i acc prev sp lc h hlen
      simp only [TopicWire.scan_go] at h
      by_cases hb : b = LAYER_SEPARATOR
      · rw [if_pos hb] at h
        cases prev with
        | true => rw [if_pos rfl] at h; exact absurd h (by simp)
        | false =>
            rw [if_neg Bool.false_ne_true] at h
            by_cases hfull : acc.length ≥ MAX_SLASH_COUNT
            · rw [if_pos hfull] at h; exact absurd h (by simp)
            · rw [if_neg hfull] at h
              have hmod : i % 256 = i := Nat.mod_eq_of_lt (by simp at hlen; omega)
              rw [hmod] at h
              obtain ⟨h1, h2, h3⟩ := ih (i + 1) (acc ++ [i]) true sp lc h
                (by simp at hlen ⊢; omega)
              refine ⟨?_, ?_, h3⟩
              · rw [h1]; simp [sepIdxsFrom, hb]
              · rw [h2]; simp [List.count_cons, hb]; omega
      · rw [if_neg hb] at h
        obtain ⟨h1, h2, h3⟩ := ih (i + 1) acc false sp lc h (by simp at hlen ⊢; omega)
        refine ⟨?_, ?_, h3⟩
        · rw [h1]; simp [sepIdxsFrom, hb]
        · rw [h2]; simp [List.count_cons, hb]

/-- Inversion of `from_raw`: the stored positions and count are the ones
recomputed from the raw bytes. -/
theorem from_raw_inv {raw : Buf} {w : TopicWire}
    (h : TopicWire.from_raw raw = .ok w) :
    w.raw = raw ∧ w.slash_positions = sepIdxsFrom raw 0 ∧
    w.layer_count = raw.count LAYER_SEPARATOR + 1 ∧ w.layer_count ≤ 8 := by
  obtain ⟨hl1, hl2⟩ := from_raw_len h
  unfold TopicWire.from_raw at h
  cases h1 : TopicWire.validate_length raw <;> rw [h1] at h
  · exact absurd h (by simp)
  cases h2 : TopicWire.validate_no_edge_slash raw <;> rw [h2] at h
  · exact absurd h (by simp)
  cases h3 : TopicWire.scan_slashes raw with
  | error e => rw [h3] at h; exact absurd h (by simp)
  | ok p =>
      obtain ⟨sp, lc⟩ := p
      rw [h3] at h
      simp only [ebind_ok] at h
      have hw := Except.ok.inj h
      unfold TopicWire.scan_slashes at h3
      obtain ⟨hsp, hlc, hle⟩ := scan_go_ok_inv raw 0 [] false sp lc h3 (by omega)
      rw [← hw]
      refine ⟨rfl, by simpa using hsp, ?_, hle⟩
      show lc = raw.count LAYER_SEPARATOR + 1
      simpa using hlc

/-- There is one more slice than there are separators. -/
theorem layersOf_go_length (ps : List Nat) : ∀ (raw : Buf) (start : Nat),
    (layersOf_go raw start ps).length = ps.length + 1 := by
  induction ps with
  | nil => intro raw start; simp [layersOf_go]
  | cons p ps ih => intro raw start; simp [layersOf_go, ih]

/-- The layer interface of a wire that validated from its own bytes:
the count is separators plus one and at most 8, `layer` is the recorded
slice arithmetic over the separator offsets, and joining the layers with
the separator reproduces the raw bytes. -/
theorem wire_inv_props {w : TopicWire}
    (hfr : TopicWire.from_raw w.raw = .ok w) :
    w.layer_count = w.raw.count LAYER_SEPARATOR + 1 ∧ w.layer_count ≤ 8 ∧
    (∀ i, i < w.layer_count → w.layer i =
      (w.raw.drop
          (if i = 0 then 0 else (sepIdxsFrom w.raw 0).getD (i - 1) 0 + 1)).take
        ((if i + 1 < w.layer_count then (sepIdxsFrom w.raw 0).getD i 0
            else w.raw.length) -
          (if i = 0 then 0 else (sepIdxsFrom w.raw 0).getD (i - 1) 0 + 1))) ∧
    List.intercalate [LAYER_SEPARATOR]
      ((List.range w.layer_count).map w.layer) = w.raw := by
  obtain ⟨raw0, lc0, sp0⟩ := w
  obtain ⟨-, hsp, hlc, hle⟩ := from_raw_inv hfr
  have hsp' : sp0 = sepIdxsFrom raw0 0 := hsp
  have hlc' : lc0 = raw0.count LAYER_SEPARATOR + 1 := hlc
  have hle' : lc0 ≤ 8 := hle
  subst hsp'
  subst hlc'
  have hps_len : (sepIdxsFrom raw0 0).length = raw0.count LAYER_SEPARATOR :=
    sepIdxsFrom_length raw0 0
  refine ⟨rfl, hle', ?_, ?_⟩
  · intro i hi
    rfl
  · have hmem : ∀ p ∈ sepIdxsFrom raw0 0, 0 ≤ p ∧ p < raw0.length ∧
        raw0[p]? = some LAYER_SEPARATOR := by
      intro p hp
      have h1 := sepIdxsFrom_mem raw0 0 p hp
      have h2 := sepIdxsFrom_sep raw0 0 p hp
      exact ⟨by omega, by omega, by simpa using h2⟩
    have hjoin := join_layersOf_go (sepIdxsFrom raw0 0) 0 raw0 hmem
      (sepIdxsFrom_sorted raw0 0)
    have hL : (layersOf raw0 (sepIdxsFrom raw0 0)).length =
        raw0.count LAYER_SEPARATOR + 1 := by
      rw [layersOf, layersOf_go_length, hps_len]
    have hmap : (List.range (raw0.count LAYER_SEPARATOR + 1)).map
        (TopicWire.layer ⟨raw0, raw0.count LAYER_SEPARATOR + 1,
          sepIdxsFrom raw0 0⟩) = layersOf raw0 (sepIdxsFrom raw0 0) := by
      conv_rhs => rw [← map_range_getD (layersOf raw0 (sepIdxsFrom raw0 0))]
      rw [hL]
      apply List.map_congr_left
      intro i hi
      have hilt : i < raw0.count LAYER_SEPARATOR + 1 := List.mem_range.mp hi
      have := wire_layer_eq raw0 (sepIdxsFrom raw0 0) i (by omega)
      rw [hps_len] at this
      exact this
    rw [hmap, layersOf, hjoin]
    simp

/-- Extracting the wire step from a successful `Topic::decode`. -/
theorem topic_decode_wire {src : Buf} {t : Topic} {rest : Buf}
    (h : Topic.decode src = .ok (t, rest)) :
    TopicWire.decode src = .ok (t.wire, rest) := by
  unfold Topic.decode at h
  cases hw : TopicWire.decode src <;> rw [hw] at h <;>
    simp only [ebind_ok, ebind_error] at h
  · exact absurd h (by simp)
  · rename_i p
    obtain ⟨w, rest₀⟩ := p
    split at h
    · exact absurd h (by simp)
    · have hp := Except.ok.inj h
      have ht : t = ⟨w⟩ := (congrArg Prod.fst hp).symm
      have hr : rest₀ = rest := congrArg Prod.snd hp
      subst ht; subst hr
      rfl

/-- Extracting the wire step from a successful `TopicFilter::decode`. -/
theorem topic_filter_decode_wire {src : Buf} {t : TopicFilter} {rest : Buf}
    (h : TopicFilter.decode src = .ok (t, rest)) :
    TopicWire.decode src = .ok (t.wire, rest) := by
  unfold TopicFilter.decode at h
  cases hw : TopicWire.decode src <;> rw [hw] at h <;>
    simp only [ebind_ok, ebind_error] at h
  · exact absurd h (by simp)
  · rename_i p
    obtain ⟨w, rest₀⟩ := p
    cases hc : TopicFilter.classify_wildcards w <;> rw [hc] at h <;>
      simp only [ebind_ok, ebind_error] at h
    · exact absurd h (by simp)
    · rename_i k
      have hp := Except.ok.inj h
      have ht : t = ⟨w, k⟩ := (congrArg Prod.fst hp).symm
      have hr : rest₀ = rest := congrArg Prod.snd hp
      subst ht; subst hr
      rfl

/-- C9: every successfully decoded `Topic` or `TopicFilter` has
`layer_count` equal to the separator count plus one (at most 8), its
`layer i` is the recorded slice from (the previous separator + 1, or 0)
to (the i-th separator, or the end), and joining the layers with `/`
reproduces the raw bytes. -/
theorem claim_C9 :
    (∀ (src : Buf) (t : Topic) (rest : Buf), Topic.decode src = .ok (t, rest) →
      t.layer_count = t.as_bytes.count LAYER_SEPARATOR + 1 ∧ t.layer_count ≤ 8 ∧
      (∀ i, i < t.layer_count → t.layer i =
        (t.as_bytes.drop
            (if i = 0 then 0 else (sepIdxsFrom t.as_bytes 0).getD (i - 1) 0 + 1)).take
          ((if i + 1 < t.layer_count then (sepIdxsFrom t.as_bytes 0).getD i 0
              else t.as_bytes.length) -
            (if i = 0 then 0 else (sepIdxsFrom t.as_bytes 0).getD (i - 1) 0 + 1))) ∧
      List.intercalate [LAYER_SEPARATOR]
        ((List.range t.layer_count).map t.layer) = t.as_bytes) ∧
    (∀ (src : Buf) (t : TopicFilter) (rest : Buf),
      TopicFilter.decode src = .ok (t, rest) →
      t.layer_count = t.as_bytes.count LAYER_SEPARATOR + 1 ∧ t.layer_count ≤ 8 ∧
      (∀ i, i < t.layer_count → t.layer i =
        (t.as_bytes.drop
            (if i = 0 then 0 else (sepIdxsFrom t.as_bytes 0).getD (i - 1) 0 + 1)).take
          ((if i + 1 < t.layer_count then (sepIdxsFrom t.as_bytes 0).getD i 0
              else t.as_bytes.length) -
            (if i = 0 then 0 else (sepIdxsFrom t.as_bytes 0).getD (i - 1) 0 + 1))) ∧
      List.intercalate [LAYER_SEPARATOR]
        ((List.range t.layer_count).map t.layer) = t.as_bytes) := by
  constructor
  · intro src t rest h
    exact wire_inv_props (topicwire_decode_from_raw (topic_decode_wire h))
  · intro src t rest h
    exact wire_inv_props (topicwire_decode_from_raw (topic_filter_decode_wire h))

/-- Witness for C9 at `"a/b"`: two layers `"a"` and `"b"` that join back
to the raw bytes. -/
theorem claim_C9_witness :
    Topic.layer_count ⟨⟨[97, 47, 98], 2, [1]⟩⟩ = 2 ∧
    Topic.layer ⟨⟨[97, 47, 98], 2, [1]⟩⟩ 0 = [97] ∧
    Topic.layer ⟨⟨[97, 47, 98], 2, [1]⟩⟩ 1 = [98] ∧
    List.intercalate [47]
      ((List.range 2).map (Topic.layer ⟨⟨[97, 47, 98], 2, [1]⟩⟩)) =
      [97, 47, 98] := by
  have h := claim_C9.1 [0, 3, 97, 47, 98] ⟨⟨[97, 47, 98], 2, [1]⟩⟩ [] (by decide)
  exact ⟨h.1, h.2.2.1 0 (by decide), h.2.2.1 1 (by decide), h.2.2.2⟩

/-- C3: on a structurally valid filter wire, classification fails
`MultiLayerWildcardNotTerminal` exactly when some non-terminal layer
contains `#`; otherwise `TopicFilter::decode` succeeds and the wildcard
kind is the table over (some layer contains `+`, the terminal layer
contains `#`); the mixed terminal layer `"a#"` is accepted as
`MultiLayer`. -/
theorem claim_C3 :
    (∀ (src : Buf) (w : TopicWire) (rest : Buf),
      TopicWire.decode src = .ok (w, rest) →
      (TopicFilter.classify_wildcards w = .error .MultiLayerWildcardNotTerminal ↔
        ∃ i, i + 1 < w.layer_count ∧
          (w.layer i).contains MULTI_LAYER_WILDCARD = true) ∧
      ((∀ i, i + 1 < w.layer_count →
          (w.layer i).contains MULTI_LAYER_WILDCARD = false) →
        TopicFilter.decode src = .ok (⟨w,
          match (List.range w.layer_count).any
              (fun i => (w.layer i).contains SINGLE_LAYER_WILDCARD),
            (w.layer (w.layer_count - 1)).contains MULTI_LAYER_WILDCARD with
          | false, false => WildcardKind.None
          | true, false => WildcardKind.SingleLayer
          | false, true => WildcardKind.MultiLayer
          | true, true => WildcardKind.Both⟩, rest))) ∧
    TopicFilter.decode (put_length_prefixed_u16 [97, 35]) =
      .ok (⟨⟨[97, 35], 1, []⟩, .MultiLayer⟩, []) := by
  constructor
  · intro src w rest hdec
    have hpos : 1 ≤ w.layer_count := from_raw_count_pos (topicwire_decode_from_raw hdec)
    have hiff : TopicFilter.classify_go w (List.range w.layer_count) false false =
        .error .MultiLayerWildcardNotTerminal ↔
        ∃ i, i + 1 < w.layer_count ∧
          (w.layer i).contains MULTI_LAYER_WILDCARD = true := by
      rw [classify_go_error_iff]
      constructor
      · intro ⟨i, hi, hc, hne⟩
        exact ⟨i, by have := List.mem_range.mp hi; omega, hc⟩
      · intro ⟨i, hlt, hc⟩
        exact ⟨i, List.mem_range.mpr (by omega), hc, by omega⟩
    constructor
    · unfold TopicFilter.classify_wildcards
      cases hg : TopicFilter.classify_go w (List.range w.layer_count) false false with
      | error e =>
          have he := classify_go_error_only w _ _ _ _ hg
          subst he
          simp only [← hiff, hg]
      | ok p =>
          constructor
          · intro h; exact absurd h (by simp)
          · intro hex
            have := hiff.mpr hex
            rw [hg] at this
            exact absurd this (by simp)
    · intro hnon
      have hgood : ∀ i ∈ List.range w.layer_count,
          (w.layer i).contains MULTI_LAYER_WILDCARD = true →
          i + 1 = w.layer_count := by
        intro i hi hc
        have hlt := List.mem_range.mp hi
        by_contra hne
        have : i + 1 < w.layer_count := by omega
        rw [hnon i this] at hc
        exact absurd hc (by simp)
      obtain ⟨k, hk⟩ : ∃ k, w.layer_count = k + 1 := ⟨w.layer_count - 1, by omega⟩
      unfold TopicFilter.decode
      rw [hdec]
      simp only [ebind_ok]
      unfold TopicFilter.classify_wildcards
      rw [classify_go_ok w (List.range w.layer_count) false false hgood]
      simp only [Bool.false_or]
      rw [range_any_terminal w k hk hnon]
      rfl
  · decide

/-- Witness for C3: `"a/#/b"` is rejected with the non-terminal
multi-layer wildcard error, `"a/+/b"` classifies as `SingleLayer`. -/
theorem claim_C3_witness :
    TopicFilter.classify_wildcards ⟨[97, 47, 35, 47, 98], 3, [1, 3]⟩ =
      .error .MultiLayerWildcardNotTerminal ∧
    TopicFilter.decode [0, 5, 97, 47, 43, 47, 98] =
      .ok (⟨⟨[97, 47, 43, 47, 98], 3, [1, 3]⟩, .SingleLayer⟩, []) := by
  constructor
  · exact ((claim_C3.1 [0, 5, 97, 47, 35, 47, 98] ⟨[97, 47, 35, 47, 98], 3, [1, 3]⟩ []
      (by decide)).1).mpr ⟨1, by decide, by decide⟩
  · have h := (claim_C3.1 [0, 5, 97, 47, 43, 47, 98] ⟨[97, 47, 43, 47, 98], 3, [1, 3]⟩ []
      (by decide)).2 (by
        intro i hi
        have h2 : i < 2 := by simp at hi; omega
        interval_cases i <;> decide)
    exact h

/-- Witness for C2 at concrete inputs: `"a/b"` succeeds with two layers,
`"/a"` fails `LeadingSlash`, `"a/+/b"` fails `WildcardInPublishTopic`,
and a truncated prefix propagates the wire error. -/
theorem claim_C2_witness :
    Topic.decode [0, 3, 97, 47, 98] = .ok (⟨⟨[97, 47, 98], 2, [1]⟩⟩, []) ∧
    Topic.decode [0, 2, 47, 97] = .error .LeadingSlash ∧
    Topic.decode [0, 5, 97, 47, 43, 47, 98] = .error .WildcardInPublishTopic ∧
    Topic.decode [5] = .error (.Wire (.BufferTooShort 2 1)) := by
  refine ⟨?_, ?_, ?_, ?_⟩
  · exact ((claim_C2.2 [0, 3, 97, 47, 98] [97, 47, 98] [] (by decide)).2.2.2.2.2.2
      (by decide) (by decide) (by decide) (by decide) (by decide) (by decide)
      (by decide)).1
  · exact (claim_C2.2 [0, 2, 47, 97] [47, 97] [] (by decide)).2.1
      (by decide) (by decide) (by decide)
  · exact (claim_C2.2 [0, 5, 97, 47, 43, 47, 98] [97, 47, 43, 47, 98] []
      (by decide)).2.2.2.2.2.1
      (by decide) (by decide) (by decide) (by decide) (by decide) (by decide)
      (by decide)
  · exact claim_C2.1 [5] (.BufferTooShort 2 1) (by decide)

end Ocypode
